import Mathlib

/-!
# Region-based arena allocator (`arena.h`)

A shallow embedding of `arena.h` and the theorems that settle the claims made
about it.

## Modelling conventions

* `size_t` values are natural numbers; every C operation that can wrap is
  written with an explicit `% SIZE_MOD` (`SIZE_MOD = 2 ^ 64`).
* The region chain owned by `Arena.begin` is a `List Region`: the head of the
  list is the region `begin` points to, the `next` link of a region is the tail
  that follows it, and `NULL` is the empty list.
* `Arena.end` is a non-owning pointer into that chain.  It is `none` for
  `NULL` and `some i` when it points to the `i`-th region of the chain.
* A `void *` into arena storage is a `Ptr`: the index of the region in the
  chain and a byte offset into that region's `data[]`.
* The storage of a region is a map from byte offsets to byte values; an access
  outside the `capacity` words of the region, or through a pointer that does
  not denote a region of the chain, is undefined in C and is reported as
  `Fault.bad_access`.  A failing `ARENA_ASSERT` is reported as a fault too.
* The backend (`malloc`) is assumed to succeed.
-/

namespace ArenaH

/-- Modulus of `size_t` arithmetic. -/
def SIZE_MOD : Nat := 2 ^ 64

/-- Value of `sizeof(uintptr_t)`. -/
def WORD : Nat := 8

/-- Value of `sizeof(Region)`: a pointer and two `size_t` fields. -/
def REGION_HEADER : Nat := 24

/-- Source line 32: `#define REGION_DEFAULT_CAPACITY (8 * 1024)`. -/
def REGION_DEFAULT_CAPACITY : Nat := 8 * 1024

/-- One region: `struct Region` without its `next` link, which is the position
in the chain.  `data` maps a byte offset inside `data[]` to the byte stored
there. -/
structure Region where
  count : Nat
  capacity : Nat
  data : Nat → Nat

/-- The arena: `begin` is the owned chain, `end_` the cursor into it. -/
structure Arena where
  begin : List Region
  end_ : Option Nat

/-- A pointer into arena storage: region index in the chain and byte offset
inside that region's `data[]`. -/
structure Ptr where
  region : Nat
  off : Nat
deriving DecidableEq

/-- Ways in which a call can fail to return. -/
inductive Fault where
  | assert_begin
  | assert_next
  | bad_access
deriving DecidableEq

/-- The zero-initialised arena: `begin = end = NULL`. -/
def arena_empty : Arena := ⟨[], none⟩

/-- Byte count that `new_region` requests from the backend (source line 51):
`sizeof(Region) + sizeof(uintptr_t) * capacity` in `size_t` arithmetic. -/
def new_region_size_bytes (capacity : Nat) : Nat :=
  (REGION_HEADER + (WORD * capacity) % SIZE_MOD) % SIZE_MOD

/-- Source lines 50-58: a fresh region has `next = NULL` (it is placed at the
end of a chain by its caller), `count = 0` and the given capacity.  The content
of fresh storage is unspecified; the model fills it with zero bytes.  The
storage of the region is taken to be its `capacity` words, which is what the
backend is asked for whenever `new_region_size_bytes` does not wrap
(`new_region_size_bytes_exact`). -/
def new_region (capacity : Nat) : Region := ⟨0, capacity, fun _ => 0⟩

/-- Source line 97: the request in words,
`(size_bytes + sizeof(uintptr_t) - 1) / sizeof(uintptr_t)`. -/
def round_words (size_bytes : Nat) : Nat :=
  ((size_bytes + WORD - 1) % SIZE_MOD) / WORD

/-- Source lines 101-102 and 113-114: `capacity = REGION_DEFAULT_CAPACITY;
if (capacity < size) capacity = size;` with the default capacity `D`. -/
def grow_capacity (D size : Nat) : Nat := if D < size then size else D

/-- The test `r->count + size > r->capacity` of source lines 107 and 111. -/
def lacks_room (r : Region) (size : Nat) : Bool :=
  decide (r.capacity < (r.count + size) % SIZE_MOD)

/-- Source lines 99-105: when `end` is `NULL` the first region is created and
both `begin` and `end` are set to it. -/
def alloc_first (D size : Nat) (a : Arena) : Except Fault Arena :=
  match a.end_ with
  | some _ => .ok a
  | none =>
    match a.begin with
    | [] => .ok ⟨[new_region (grow_capacity D size)], some 0⟩
    | _ :: _ => .error .assert_begin

/-- Source lines 107-109: the cursor moves forward while the region under it
lacks room and has a successor.  The first argument is the chain from the
cursor on, the second the index of the cursor; the result is the index where
the cursor stops. -/
def advance_end (size : Nat) : List Region → Nat → Nat
  | r :: r' :: rest, e =>
    if lacks_room r size then advance_end size (r' :: rest) (e + 1) else e
  | _, e => e

/-- Source line 120: `count += size` on one region. -/
def bumped (r : Region) (size : Nat) : Region :=
  ⟨(r.count + size) % SIZE_MOD, r.capacity, r.data⟩

/-- Source lines 119-121: the result is `&end->data[end->count]` and the count
of the cursor region grows by `size`. -/
def bump (rs : List Region) (e size : Nat) : Except Fault (Arena × Ptr) :=
  match rs[e]? with
  | none => .error .bad_access
  | some r => .ok (⟨rs.set e (bumped r size), some e⟩, ⟨e, WORD * r.count⟩)

/-- Source lines 107-121, for an arena whose cursor is at index `e`. -/
def alloc_from (D size : Nat) (rs : List Region) (e : Nat) :
    Except Fault (Arena × Ptr) :=
  let e1 := advance_end size (rs.drop e) e
  match rs[e1]? with
  | none => .error .bad_access
  | some r =>
    if lacks_room r size then
      if e1 + 1 < rs.length then .error .assert_next
      else bump (rs.take (e1 + 1) ++ [new_region (grow_capacity D size)]) (e1 + 1) size
    else bump rs e1 size

/-- Source lines 96-122: `arena_alloc`, with default region capacity `D`. -/
def arena_alloc (D : Nat) (a : Arena) (size_bytes : Nat) :
    Except Fault (Arena × Ptr) :=
  let size := round_words size_bytes
  match alloc_first D size a with
  | .error f => .error f
  | .ok a1 =>
    match a1.end_ with
    | none => .error .bad_access
    | some e => alloc_from D size a1.begin e

/-- Read of one byte through a `char *`. -/
def read_byte (rs : List Region) (p : Ptr) : Except Fault Nat :=
  match rs[p.region]? with
  | none => .error .bad_access
  | some r => if p.off < WORD * r.capacity then .ok (r.data p.off) else .error .bad_access

/-- Write of one byte through a `char *`. -/
def write_byte (rs : List Region) (p : Ptr) (b : Nat) : Except Fault (List Region) :=
  match rs[p.region]? with
  | none => .error .bad_access
  | some r =>
    if p.off < WORD * r.capacity then
      .ok (rs.set p.region ⟨r.count, r.capacity, Function.update r.data p.off b⟩)
    else .error .bad_access

/-- Source lines 129-131: `for (i = 0; i < oldsz; ++i) newptr_char[i] =
oldptr_char[i];`.  The third argument is the current `i`, the last one the
number of iterations still to run. -/
def copy_bytes (dst src : Ptr) : List Region → Nat → Nat → Except Fault (List Region)
  | rs, _, 0 => .ok rs
  | rs, i, n + 1 =>
    match read_byte rs ⟨src.region, src.off + i⟩ with
    | .error f => .error f
    | .ok b =>
      match write_byte rs ⟨dst.region, dst.off + i⟩ b with
      | .error f => .error f
      | .ok rs1 => copy_bytes dst src rs1 (i + 1) n

/-- Source lines 124-133: `arena_realloc`. -/
def arena_realloc (D : Nat) (a : Arena) (oldptr : Ptr) (oldsz newsz : Nat) :
    Except Fault (Arena × Ptr) :=
  if newsz ≤ oldsz then .ok (a, oldptr)
  else
    match arena_alloc D a newsz with
    | .error f => .error f
    | .ok (a1, newptr) =>
      match copy_bytes newptr oldptr a1.begin 0 oldsz with
      | .error f => .error f
      | .ok rs => .ok (⟨rs, a1.end_⟩, newptr)

/-- Source lines 135-141: every region of the chain gets `count = 0` and `end`
becomes `begin`. -/
def arena_reset (a : Arena) : Arena :=
  ⟨a.begin.map (fun r => ⟨0, r.capacity, r.data⟩),
   match a.begin with
   | [] => none
   | _ :: _ => some 0⟩

/-- Source lines 144-149: the regions handed to `free_region`, in order. -/
def released_regions : List Region → List Region
  | [] => []
  | r0 :: rest => r0 :: released_regions rest

/-- Source lines 143-152: after the chain is released `begin` and `end` are
`NULL`. -/
def arena_free (_a : Arena) : Arena := ⟨[], none⟩

/-! ## Sequences of calls, reachable states and the shape invariant -/

/-- A block handed to a caller: the pointer returned and the byte size that
was requested for it. -/
structure Block where
  ptr : Ptr
  size : Nat
deriving DecidableEq

/-- Two blocks do not share a byte. -/
def Block.disjoint (b c : Block) : Prop :=
  b.ptr.region ≠ c.ptr.region ∨ b.ptr.off + b.size ≤ c.ptr.off ∨
    c.ptr.off + c.size ≤ b.ptr.off

instance (b c : Block) : Decidable (Block.disjoint b c) := by
  unfold Block.disjoint; infer_instance

/-- The block lies inside the `capacity` words of storage of a region of the
chain `rs`. -/
def Block.inside (rs : List Region) (b : Block) : Prop :=
  ∃ r, rs[b.ptr.region]? = some r ∧ b.ptr.off + b.size ≤ WORD * r.capacity

/-- Calls `arena_alloc` once for every size of the list, in order, and collects
the returned blocks. -/
def alloc_seq (D : Nat) : Arena → List Nat → Except Fault (Arena × List Block)
  | a, [] => .ok (a, [])
  | a, n :: ns =>
    match arena_alloc D a n with
    | .error f => .error f
    | .ok (a1, p) =>
      match alloc_seq D a1 ns with
      | .error f => .error f
      | .ok (a2, bs) => .ok (a2, ⟨p, n⟩ :: bs)

/-- States reachable from the zero-initialised arena through calls of the four
operations that return, with arguments that are `size_t` values. -/
inductive Reachable (D : Nat) : Arena → Prop
  | empty : Reachable D arena_empty
  | alloc {a a1 : Arena} {p : Ptr} (n : Nat) :
      Reachable D a → n < SIZE_MOD → arena_alloc D a n = .ok (a1, p) → Reachable D a1
  | realloc {a a1 : Arena} {q : Ptr} (p : Ptr) (oldsz newsz : Nat) :
      Reachable D a → oldsz < SIZE_MOD → newsz < SIZE_MOD →
      arena_realloc D a p oldsz newsz = .ok (a1, q) → Reachable D a1
  | reset {a : Arena} : Reachable D a → Reachable D (arena_reset a)
  | free {a : Arena} : Reachable D a → Reachable D (arena_free a)

/-- The count and the capacity of a region, without its storage. -/
def Region.shape (r : Region) : Nat × Nat := (r.count, r.capacity)

/-- Shape invariant of an arena: `begin` and `end` are `NULL` together, `end`
points into the chain, no region is used beyond its capacity, and every
capacity is the default capacity `D` or a rounded request (below `2 ^ 61`). -/
structure Inv (D : Nat) (a : Arena) : Prop where
  null_iff : a.begin = [] ↔ a.end_ = none
  end_lt : ∀ e, a.end_ = some e → e < a.begin.length
  count_le : ∀ r ∈ a.begin, r.count ≤ r.capacity
  cap_le : ∀ r ∈ a.begin, r.capacity ≤ D ∨ r.capacity < 2305843009213693952

/-- A concrete state used to instantiate the theorems below, with default
capacity 8: the first region is full and the cursor is on a second region that
holds one word.  It is the state after `arena_alloc` of 64 bytes and then of 8
bytes on the zero-initialised arena. -/
def sample_arena : Arena :=
  ⟨[⟨8, 8, fun _ => 0⟩, ⟨1, 8, fun _ => 0⟩], some 1⟩

/-- The state after one `arena_alloc` of 65536 bytes on the zero-initialised
arena with the default capacity of the source: one region of 8192 words, all of
them used. -/
def full_region_arena : Arena := ⟨[⟨8192, 8192, fun _ => 0⟩], some 0⟩

/-- The state after two calls `arena_alloc` of 65536 bytes on the
zero-initialised arena with the default capacity of the source: two regions of
8192 words each, both full, the cursor on the second. -/
def two_full_regions : Arena :=
  ⟨[⟨8192, 8192, fun _ => 0⟩, ⟨8192, 8192, fun _ => 0⟩], some 1⟩

/-- Words left in the regions of a chain: the sum of `capacity - count`. -/
def free_words (rs : List Region) : Nat :=
  (rs.map (fun r => r.capacity - r.count)).sum

/-- Sum of the capacities of the regions of a chain. -/
def total_capacity (rs : List Region) : Nat :=
  (rs.map Region.capacity).sum

/-- Cumulative word-rounded size of a sequence of requests. -/
def total_words (sizes : List Nat) : Nat :=
  (sizes.map round_words).sum

/-- The block lies below the count of its region: it is part of the words
that the region has handed out. -/
@[reducible] def Block.live (rs : List Region) (b : Block) : Prop :=
  ∃ r, rs[b.ptr.region]? = some r ∧ b.ptr.off + b.size ≤ WORD * r.count

/-- The block starts at or above the count that its region has in the chain
`rs`, if the chain has that region at all. -/
@[reducible] def Block.fresh (rs : List Region) (b : Block) : Prop :=
  ∀ r : Region, rs[b.ptr.region]? = some r → WORD * r.count ≤ b.ptr.off

/-- The chain `rs1` extends `rs`: every region of `rs` is still at its index,
with the same capacity and storage and a count that is not smaller. -/
@[reducible] def chain_grows (rs rs1 : List Region) : Prop :=
  ∀ (i : Nat) (r : Region), rs[i]? = some r →
    ∃ r1 : Region, rs1[i]? = some r1 ∧ r.count ≤ r1.count ∧ r1.capacity = r.capacity ∧
      r1.data = r.data

/-- Unused-tail property of an arena: every region strictly after the cursor
has `count = 0`. -/
def TailUnused (a : Arena) : Prop :=
  ∀ (e j : Nat) (r : Region), a.end_ = some e → e < j → a.begin[j]? = some r → r.count = 0

/-- A concrete state with default capacity 8, reached by `arena_reset` of
`sample_arena` followed by `arena_alloc` of 48 bytes: the cursor is on the first
region, which holds 6 of its 8 words, and an unused region follows it. -/
def walk_sample : Arena :=
  ⟨[⟨6, 8, fun _ => 0⟩, ⟨0, 8, fun _ => 0⟩], some 0⟩

end ArenaH

/-!
# Text slicing (`string_view.h`)

A `StringView` is a byte count and the address of its first byte in a memory
that the view does not own.  Memory is a map from addresses to byte values;
the functions that read through a view take it as their first argument.  A
function that updates `*sv` and returns a view yields the pair of the returned
view and the updated `*sv`.  Counts are `size_t` values and their arithmetic is
written with an explicit `% SIZE_MOD`; addresses are natural numbers.
-/

namespace StringViewH

open ArenaH (SIZE_MOD)

/-- Source lines 10-13: `struct StringView`. -/
structure StringView where
  count : Nat
  data : Nat
deriving DecidableEq

/-- Addition of two `size_t` values. -/
def size_add (a b : Nat) : Nat := (a + b) % SIZE_MOD

/-- Subtraction of two `size_t` values. -/
def size_sub (a b : Nat) : Nat := (a + SIZE_MOD - b % SIZE_MOD) % SIZE_MOD

/-- Source lines 48-53: `sv_from_parts`. -/
def sv_from_parts (data count : Nat) : StringView := ⟨count, data⟩

/-- The `n` bytes of memory that start at address `data`. -/
def view_bytes (mem : Nat → Nat) : Nat → Nat → List Nat
  | _, 0 => []
  | data, n + 1 => mem data :: view_bytes mem (data + 1) n

/-- The bytes a view denotes. -/
def StringView.bytes (mem : Nat → Nat) (sv : StringView) : List Nat :=
  view_bytes mem sv.data sv.count

/-- The test `memcmp(a, b, n) == 0`. -/
def memcmp_eq (mem : Nat → Nat) : Nat → Nat → Nat → Bool
  | _, _, 0 => true
  | a, b, n + 1 => if mem a = mem b then memcmp_eq mem (a + 1) (b + 1) n else false

/-- Source lines 188-194: `sv_eq`. -/
def sv_eq (mem : Nat → Nat) (a b : StringView) : Bool :=
  if a.count ≠ b.count then false else memcmp_eq mem a.data b.data a.count

/-- Source lines 134-136: `while (i < sv->count && sv->data[i] != delim)
i += 1;`.  The first numeric argument bounds the number of iterations, the
second is the current `i`; the result is `i` when the loop is left. -/
def chop_by_delim_loop (mem : Nat → Nat) (sv : StringView) (delim : Nat) : Nat → Nat → Nat
  | 0, i => i
  | fuel + 1, i =>
    if i < sv.count ∧ mem (sv.data + i) ≠ delim then
      chop_by_delim_loop mem sv delim fuel (size_add i 1)
    else i

/-- Source lines 132-149: `sv_chop_by_delim`; the result is the returned chunk
and the updated `*sv`.  The loop runs at most `sv.count` times
(`chop_by_delim_loop_exit`). -/
def sv_chop_by_delim (mem : Nat → Nat) (sv : StringView) (delim : Nat) :
    StringView × StringView :=
  let i := chop_by_delim_loop mem sv delim sv.count 0
  let result := sv_from_parts sv.data i
  if i < sv.count then
    (result, ⟨size_sub sv.count (size_add i 1), sv.data + size_add i 1⟩)
  else
    (result, ⟨size_sub sv.count i, sv.data + i⟩)

/-- Source lines 154-157: `while (i + thicc_delim.count < sv->count &&
!(sv_eq(window, thicc_delim))) { i++; window.data++; }`, where `window` is the
view of `thicc_delim.count` bytes at `sv->data + i`.  The first numeric
argument bounds the number of iterations, the second is the current `i`. -/
def chop_by_sv_loop (mem : Nat → Nat) (sv thicc_delim : StringView) : Nat → Nat → Nat
  | 0, i => i
  | fuel + 1, i =>
    if size_add i thicc_delim.count < sv.count ∧
        sv_eq mem (sv_from_parts (sv.data + i) thicc_delim.count) thicc_delim = false then
      chop_by_sv_loop mem sv thicc_delim fuel (size_add i 1)
    else i

/-- Source lines 151-167: `sv_chop_by_sv`; the result is the returned chunk and
the updated `*sv`.  The loop runs at most `sv.count` times
(`chop_by_sv_loop_exit`). -/
def sv_chop_by_sv (mem : Nat → Nat) (sv thicc_delim : StringView) :
    StringView × StringView :=
  let i := chop_by_sv_loop mem sv thicc_delim sv.count 0
  let result := sv_from_parts sv.data i
  let result1 : StringView :=
    if size_add i thicc_delim.count = sv.count then
      ⟨size_add result.count thicc_delim.count, result.data⟩
    else result
  (result1, ⟨size_sub sv.count (size_add i thicc_delim.count),
             sv.data + size_add i thicc_delim.count⟩)

/-- The delimiter occurs in the view at position `j`: the bytes of the view
from `j` on start with the bytes of the delimiter. -/
def occurs_at (mem : Nat → Nat) (sv thicc_delim : StringView) (j : Nat) : Prop :=
  view_bytes mem (sv.data + j) thicc_delim.count = thicc_delim.bytes mem

instance (mem : Nat → Nat) (sv thicc_delim : StringView) (j : Nat) :
    Decidable (occurs_at mem sv thicc_delim j) := by
  unfold occurs_at; infer_instance

/-- A memory that holds the given bytes from address 0 on and zero elsewhere. -/
def memory_of (bytes : List Nat) : Nat → Nat := fun a => bytes.getD a 0

end StringViewH

namespace ArenaH

/-! ## The cursor walk and the shape of an allocation -/

theorem advance_end_spec (size : Nat) :
    ∀ (L : List Region) (e : Nat), L ≠ [] →
      ∃ k, advance_end size L e = e + k ∧ k < L.length ∧
        (∀ j r, j < k → L[j]? = some r → lacks_room r size = true) ∧
        (∀ r, L[k]? = some r → lacks_room r size = true → k + 1 = L.length) := by
  intro L
  induction L with
  | nil => intro e h; exact absurd rfl h
  | cons r tl ih =>
    intro e _
    cases tl with
    | nil =>
      refine ⟨0, by simp [advance_end], by simp, ?_, ?_⟩
      · intro j r' hj; omega
      · intro r' _ _; simp
    | cons r' rest =>
      by_cases hl : lacks_room r size = true
      · obtain ⟨k, hk, hlt, hskip, hstop⟩ := ih (e + 1) (by simp)
        refine ⟨k + 1, ?_, by simpa using hlt, ?_, ?_⟩
        · simp only [advance_end, hl, if_true, hk]; omega
        · intro j r'' hj hget
          cases j with
          | zero => simp at hget; subst hget; exact hl
          | succ j => exact hskip j r'' (by omega) (by simpa using hget)
        · intro r'' hget hlack
          have := hstop r'' (by simpa using hget) hlack
          simp only [List.length_cons] at this ⊢
          omega
      · refine ⟨0, by simp [advance_end, hl], by simp, ?_, ?_⟩
        · intro j r'' hj; omega
        · intro r'' hget hlack
          simp at hget; subst hget; exact absurd hlack hl

/-- The two ways an allocation from a valid cursor can go: it is served by the
first region at or after the cursor that has room, or no such region exists
and one region is appended. -/
theorem alloc_from_cases (D size : Nat) (rs : List Region) (e : Nat)
    (he : e < rs.length) :
    (∃ e1 r, e ≤ e1 ∧ rs[e1]? = some r ∧ lacks_room r size = false ∧
        (∀ j r', e ≤ j → j < e1 → rs[j]? = some r' → lacks_room r' size = true) ∧
        alloc_from D size rs e
          = .ok (⟨rs.set e1 (bumped r size), some e1⟩, ⟨e1, WORD * r.count⟩)) ∨
    ((∀ j r', e ≤ j → rs[j]? = some r' → lacks_room r' size = true) ∧
        alloc_from D size rs e
          = .ok (⟨rs ++ [bumped (new_region (grow_capacity D size)) size],
                  some rs.length⟩, ⟨rs.length, 0⟩)) := by
  have hne : rs.drop e ≠ [] := by
    intro h
    have := congrArg List.length h
    simp at this
    omega
  obtain ⟨k, hk, hlt, hskip, hstop⟩ := advance_end_spec size (rs.drop e) e hne
  have hlen : e + k < rs.length := by
    simp only [List.length_drop] at hlt; omega
  have hget : rs[e + k]? = some rs[e + k] := List.getElem?_eq_getElem hlen
  have hskip' : ∀ j r', e ≤ j → j < e + k → rs[j]? = some r' →
      lacks_room r' size = true := by
    intro j r' h1 h2 h3
    refine hskip (j - e) r' (by omega) ?_
    rw [List.getElem?_drop]
    have : e + (j - e) = j := by omega
    rw [this]; exact h3
  by_cases hl : lacks_room rs[e + k] size = true
  · right
    have hlast : e + k + 1 = rs.length := by
      have := hstop rs[e + k] (by rw [List.getElem?_drop]; exact hget) hl
      simp only [List.length_drop] at this; omega
    constructor
    · intro j r' h1 h3
      have hj : j < rs.length := by
        by_contra hcon
        rw [List.getElem?_eq_none (by omega)] at h3
        exact absurd h3 (by simp)
      by_cases h2 : j < e + k
      · exact hskip' j r' h1 h2 h3
      · have : j = e + k := by omega
        subst this
        rw [hget] at h3
        cases h3; exact hl
    · have htake : rs.take (e + k + 1) = rs := List.take_of_length_le (by omega)
      have hnew : (rs ++ [new_region (grow_capacity D size)])[rs.length]?
          = some (new_region (grow_capacity D size)) := by
        rw [List.getElem?_append_right (le_refl _)]; simp
      simp only [alloc_from, hk, hget, hl, if_true, htake]
      rw [if_neg (by omega), hlast]
      simp only [bump, hnew]
      rw [List.set_append_right _ _ (le_refl _)]
      simp [new_region]
  · left
    have hl' : lacks_room rs[e + k] size = false := by simpa using hl
    refine ⟨e + k, rs[e + k], by omega, hget, hl', hskip', ?_⟩
    simp [alloc_from, hk, hget, hl', bump]

theorem size_mod_eq : SIZE_MOD = 18446744073709551616 := by
  norm_num [SIZE_MOD]

/-- The byte count of source line 51 is exact for capacities up to
`2 ^ 61 - 4` words. -/
theorem new_region_size_bytes_exact (capacity : Nat)
    (h : capacity ≤ 2305843009213693948) :
    new_region_size_bytes capacity = REGION_HEADER + WORD * capacity := by
  unfold new_region_size_bytes
  rw [size_mod_eq]
  simp only [REGION_HEADER, WORD]
  omega

theorem round_words_lt (n : Nat) : round_words n < 2305843009213693952 := by
  unfold round_words
  rw [size_mod_eq]
  simp only [WORD]
  omega

theorem round_words_mod (n : Nat) : (0 + round_words n) % SIZE_MOD = round_words n := by
  have := round_words_lt n
  rw [size_mod_eq, Nat.zero_add]
  exact Nat.mod_eq_of_lt (by omega)

theorem grow_capacity_bound (D n : Nat) :
    grow_capacity D (round_words n) ≤ D ∨
      grow_capacity D (round_words n) < 2305843009213693952 := by
  have := round_words_lt n
  unfold grow_capacity
  split
  · right; exact this
  · left; exact le_refl _

theorem lacks_room_false_iff (r : Region) (size : Nat) :
    lacks_room r size = false ↔ (r.count + size) % SIZE_MOD ≤ r.capacity := by
  simp [lacks_room]

theorem lacks_room_new_region (D size : Nat) :
    lacks_room (new_region (grow_capacity D size)) size = false := by
  rw [lacks_room_false_iff]
  have h1 : (0 + size) % SIZE_MOD ≤ size := by
    rw [Nat.zero_add]; exact Nat.mod_le _ _
  have h2 : size ≤ grow_capacity D size := by
    unfold grow_capacity; split <;> omega
  exact le_trans h1 h2

theorem arena_alloc_of_end (D : Nat) (a : Arena) (n e : Nat) (h : a.end_ = some e) :
    arena_alloc D a n = alloc_from D (round_words n) a.begin e := by
  simp [arena_alloc, alloc_first, h]

theorem arena_alloc_of_null (D : Nat) (a : Arena) (n : Nat)
    (h1 : a.end_ = none) (h2 : a.begin = []) :
    arena_alloc D a n
      = .ok (⟨[bumped (new_region (grow_capacity D (round_words n))) (round_words n)],
              some 0⟩, ⟨0, 0⟩) := by
  have hl := lacks_room_new_region D (round_words n)
  simp only [arena_alloc, alloc_first, h1, h2, alloc_from, advance_end, List.drop_zero,
    List.getElem?_cons_zero, hl, bump, List.set_cons_zero]
  rfl

theorem bumped_count_le (r : Region) (size : Nat) (h : lacks_room r size = false) :
    (bumped r size).count ≤ (bumped r size).capacity := by
  rw [lacks_room_false_iff] at h
  exact h

/-- An allocation from a state that satisfies the shape invariant returns, and
the state it leaves satisfies the invariant again. -/
theorem arena_alloc_inv (D : Nat) (a : Arena) (n : Nat) (h : Inv D a) :
    ∃ a1 p, arena_alloc D a n = .ok (a1, p) ∧ Inv D a1 := by
  cases he : a.end_ with
  | none =>
    have hb : a.begin = [] := h.null_iff.mpr he
    refine ⟨_, _, arena_alloc_of_null D a n he hb, ?_, ?_, ?_, ?_⟩
    · simp
    · intro e he'; simp at he'; subst he'; simp
    · intro r hr
      simp only [List.mem_singleton] at hr
      subst hr
      exact bumped_count_le _ _ (lacks_room_new_region D _)
    · intro r hr
      simp only [List.mem_singleton] at hr
      subst hr
      exact grow_capacity_bound D n
  | some e =>
    have hlt := h.end_lt e he
    rw [arena_alloc_of_end D a n e he]
    rcases alloc_from_cases D (round_words n) a.begin e hlt with
      ⟨e1, r, _, hget, hroom, _, heq⟩ | ⟨_, heq⟩
    · have he1 : e1 < a.begin.length := by
        rcases List.getElem?_eq_some.mp hget with ⟨hlt1, _⟩
        exact hlt1
      have hrmem : r ∈ a.begin := List.mem_iff_getElem?.mpr ⟨e1, hget⟩
      refine ⟨_, _, heq, ?_, ?_, ?_, ?_⟩
      · constructor
        · intro hnil
          have := congrArg List.length hnil
          simp only [List.length_set, List.length_nil] at this; omega
        · intro hcon; simp at hcon
      · intro e2 he2; simp at he2; subst he2; simpa using he1
      · intro r' hr'
        rcases List.mem_or_eq_of_mem_set hr' with hmem | heq'
        · exact h.count_le r' hmem
        · subst heq'; exact bumped_count_le _ _ hroom
      · intro r' hr'
        rcases List.mem_or_eq_of_mem_set hr' with hmem | heq'
        · exact h.cap_le r' hmem
        · subst heq'; exact h.cap_le r hrmem
    · refine ⟨_, _, heq, ?_, ?_, ?_, ?_⟩
      · constructor
        · intro hnil; simp at hnil
        · intro hcon; simp at hcon
      · intro e2 he2; simp at he2; subst he2; simp
      · intro r' hr'
        rcases List.mem_append.mp hr' with hmem | hmem
        · exact h.count_le r' hmem
        · simp only [List.mem_singleton] at hmem
          subst hmem
          exact bumped_count_le _ _ (lacks_room_new_region D _)
      · intro r' hr'
        rcases List.mem_append.mp hr' with hmem | hmem
        · exact h.cap_le r' hmem
        · simp only [List.mem_singleton] at hmem
          subst hmem
          exact grow_capacity_bound D n

theorem arena_alloc_inv_of_ok (D : Nat) (a a1 : Arena) (n : Nat) (p : Ptr) (h : Inv D a)
    (hok : arena_alloc D a n = .ok (a1, p)) : Inv D a1 := by
  obtain ⟨a2, p2, h2, hinv⟩ := arena_alloc_inv D a n h
  rw [h2] at hok
  cases hok
  exact hinv

theorem write_byte_shape (rs rs1 : List Region) (p : Ptr) (b : Nat)
    (h : write_byte rs p b = .ok rs1) :
    rs1.map Region.shape = rs.map Region.shape := by
  unfold write_byte at h
  split at h
  · cases h
  · rename_i r hget
    split at h
    · cases h
      apply List.ext_getElem?
      intro i
      simp only [List.getElem?_map, List.getElem?_set]
      by_cases hi : p.region = i
      · subst hi
        have hlt : p.region < rs.length := (List.getElem?_eq_some.mp hget).1
        simp [hlt, hget, Region.shape]
      · simp [hi]
    · cases h

theorem copy_bytes_shape (dst src : Ptr) :
    ∀ (n : Nat) (rs rs1 : List Region) (i : Nat),
      copy_bytes dst src rs i n = .ok rs1 →
      rs1.map Region.shape = rs.map Region.shape := by
  intro n
  induction n with
  | zero => intro rs rs1 i h; simp [copy_bytes] at h; subst h; rfl
  | succ n ih =>
    intro rs rs1 i h
    simp only [copy_bytes] at h
    split at h
    · cases h
    · next b _ =>
      split at h
      · cases h
      · next rs2 hw =>
        rw [ih rs2 rs1 (i + 1) h, write_byte_shape rs rs2 _ b hw]

theorem inv_of_shape (D : Nat) (a a1 : Arena) (h : Inv D a)
    (hs : a1.begin.map Region.shape = a.begin.map Region.shape)
    (he : a1.end_ = a.end_) : Inv D a1 := by
  have hlen : a1.begin.length = a.begin.length := by
    simpa using congrArg List.length hs
  refine ⟨?_, ?_, ?_, ?_⟩
  · rw [he, ← h.null_iff]
    constructor
    · intro h1; apply List.eq_nil_of_length_eq_zero; rw [← hlen, h1]; rfl
    · intro h1; apply List.eq_nil_of_length_eq_zero; rw [hlen, h1]; rfl
  · intro e hee; rw [hlen]; exact h.end_lt e (he ▸ hee)
  · intro r hr
    have hmem : r.shape ∈ a.begin.map Region.shape := by
      rw [← hs]; exact List.mem_map_of_mem _ hr
    obtain ⟨r0, hr0, hsh⟩ := List.mem_map.mp hmem
    have := h.count_le r0 hr0
    simp only [Region.shape, Prod.mk.injEq] at hsh
    omega
  · intro r hr
    have hmem : r.shape ∈ a.begin.map Region.shape := by
      rw [← hs]; exact List.mem_map_of_mem _ hr
    obtain ⟨r0, hr0, hsh⟩ := List.mem_map.mp hmem
    have := h.cap_le r0 hr0
    simp only [Region.shape, Prod.mk.injEq] at hsh
    omega

theorem arena_realloc_inv_of_ok (D : Nat) (a a1 : Arena) (p q : Ptr) (oldsz newsz : Nat)
    (h : Inv D a) (hok : arena_realloc D a p oldsz newsz = .ok (a1, q)) : Inv D a1 := by
  unfold arena_realloc at hok
  split at hok
  · cases hok; exact h
  · split at hok
    · cases hok
    · next a2 newptr halloc =>
      have h2 : Inv D a2 := arena_alloc_inv_of_ok D a a2 newsz newptr h halloc
      split at hok
      · cases hok
      · next rs hcopy =>
        cases hok
        exact inv_of_shape D a2 _ h2 (copy_bytes_shape _ _ _ _ _ _ hcopy) rfl

theorem arena_reset_inv (D : Nat) (a : Arena) (h : Inv D a) : Inv D (arena_reset a) := by
  refine ⟨?_, ?_, ?_, ?_⟩
  · cases hb : a.begin <;> simp [arena_reset, hb]
  · intro e he
    cases hb : a.begin with
    | nil => simp [arena_reset, hb] at he
    | cons r rest =>
      simp [arena_reset, hb] at he
      subst he
      simp [arena_reset, hb]
  · intro r hr
    simp only [arena_reset, List.mem_map] at hr
    obtain ⟨r0, _, hr0⟩ := hr
    subst hr0
    exact Nat.zero_le _
  · intro r hr
    simp only [arena_reset, List.mem_map] at hr
    obtain ⟨r0, hmem, hr0⟩ := hr
    subst hr0
    exact h.cap_le r0 hmem

theorem arena_empty_inv (D : Nat) : Inv D arena_empty :=
  ⟨by simp [arena_empty], by intro e he; simp [arena_empty] at he,
   by intro r hr; simp [arena_empty] at hr, by intro r hr; simp [arena_empty] at hr⟩

/-- Every reachable state satisfies the shape invariant. -/
theorem reachable_inv (D : Nat) (a : Arena) (h : Reachable D a) : Inv D a := by
  induction h with
  | empty => exact arena_empty_inv D
  | alloc n _ _ hok ih => exact arena_alloc_inv_of_ok D _ _ n _ ih hok
  | realloc p oldsz newsz _ _ _ hok ih =>
    exact arena_realloc_inv_of_ok D _ _ p _ oldsz newsz ih hok
  | reset _ ih => exact arena_reset_inv D _ ih
  | free _ _ => exact arena_empty_inv D

theorem sample_arena_reachable : Reachable 8 sample_arena := by
  have h1 : arena_alloc 8 arena_empty 64
      = .ok (⟨[⟨8, 8, fun _ => 0⟩], some 0⟩, ⟨0, 0⟩) := by rfl
  have h2 : arena_alloc 8 ⟨[⟨8, 8, fun _ => 0⟩], some 0⟩ 8
      = .ok (sample_arena, ⟨1, 0⟩) := by rfl
  exact Reachable.alloc 8 (Reachable.alloc 64 Reachable.empty (by decide) h1) (by decide) h2

/-- One one-word allocation in a single-region arena that still has room. -/
theorem alloc_one_word_fits (D k s : Nat) (data : Nat → Nat) (hs : round_words s = 1)
    (hk : k + 1 ≤ D) (hD : D < SIZE_MOD) :
    arena_alloc D ⟨[⟨k, D, data⟩], some 0⟩ s
      = .ok (⟨[⟨k + 1, D, data⟩], some 0⟩, ⟨0, WORD * k⟩) := by
  have hmod : (k + 1) % SIZE_MOD = k + 1 := Nat.mod_eq_of_lt (by omega)
  have hl : lacks_room ⟨k, D, data⟩ 1 = false := by
    rw [lacks_room_false_iff]; simp only [hmod]; exact hk
  rw [arena_alloc_of_end D _ s 0 rfl, hs]
  simp only [alloc_from, advance_end, List.drop_zero, List.getElem?_cons_zero, hl, bump,
    List.set_cons_zero, bumped, hmod]
  rfl

/-- A run of one-word allocations that fits in a single-region arena. -/
theorem alloc_seq_one_word_fits (D : Nat) (data : Nat → Nat) (hD : D < SIZE_MOD) :
    ∀ (sizes : List Nat) (k : Nat), (∀ s ∈ sizes, round_words s = 1) →
      k + sizes.length ≤ D →
      ∃ bs, alloc_seq D ⟨[⟨k, D, data⟩], some 0⟩ sizes
          = .ok (⟨[⟨k + sizes.length, D, data⟩], some 0⟩, bs) ∧
        bs.map Block.ptr = (List.range sizes.length).map (fun i => ⟨0, WORD * (k + i)⟩) := by
  intro sizes
  induction sizes with
  | nil => intro k _ _; exact ⟨[], rfl, rfl⟩
  | cons s rest ih =>
    intro k hone hk
    simp only [List.length_cons] at hk
    obtain ⟨bs, hbs, hptr⟩ := ih (k + 1) (fun t ht => hone t (List.mem_cons_of_mem _ ht))
      (by omega)
    refine ⟨⟨⟨0, WORD * k⟩, s⟩ :: bs, ?_, ?_⟩
    · simp only [alloc_seq,
        alloc_one_word_fits D k s data (hone s (List.mem_cons_self _ _)) (by omega) hD, hbs,
        List.length_cons]
      have : k + 1 + rest.length = k + (rest.length + 1) := by omega
      rw [this]
    · simp only [List.map_cons, hptr, List.length_cons, List.range_succ_eq_map, List.map_map,
        Nat.add_zero]
      congr 1
      apply List.map_congr_left
      intro i _
      simp only [Function.comp, Nat.succ_eq_add_one]
      have : k + 1 + i = k + (i + 1) := by omega
      rw [this]

theorem full_region_arena_reachable :
    Reachable REGION_DEFAULT_CAPACITY full_region_arena := by
  have h1 : arena_alloc REGION_DEFAULT_CAPACITY arena_empty 65536
      = .ok (full_region_arena, ⟨0, 0⟩) := by rfl
  exact Reachable.alloc 65536 Reachable.empty (by decide) h1

theorem two_full_regions_reachable :
    Reachable REGION_DEFAULT_CAPACITY two_full_regions := by
  have h2 : arena_alloc REGION_DEFAULT_CAPACITY full_region_arena 65536
      = .ok (two_full_regions, ⟨1, 0⟩) := by rfl
  exact Reachable.alloc 65536 full_region_arena_reachable (by decide) h2

/-! ## Allocations of sizes that do not wrap -/

theorem le_word_mul_round_words (n : Nat) (hn : n + WORD ≤ SIZE_MOD) :
    n ≤ WORD * round_words n := by
  unfold round_words
  rw [size_mod_eq] at *
  simp only [WORD] at *
  rw [Nat.mod_eq_of_lt (by omega)]
  omega

/-- With a default capacity of at most `2 ^ 63` the sum `count + size` of the
room test does not wrap. -/
theorem count_add_no_wrap (D : Nat) (a : Arena) (h : Inv D a)
    (hD : D ≤ 9223372036854775808) (r : Region) (hr : r ∈ a.begin) (n : Nat) :
    (r.count + round_words n) % SIZE_MOD = r.count + round_words n := by
  have h1 := h.count_le r hr
  have h2 := h.cap_le r hr
  have h3 := round_words_lt n
  rw [size_mod_eq]
  exact Nat.mod_eq_of_lt (by omega)

/-- One allocation of a size that does not wrap: the call returns, the chain
grows, and the block returned lies below the new count of its region and at or
above the old one. -/
theorem arena_alloc_block (D : Nat) (a : Arena) (n : Nat) (hinv : Inv D a)
    (hD : D ≤ 9223372036854775808) (hn : n + WORD ≤ SIZE_MOD) :
    ∃ a1 p, arena_alloc D a n = .ok (a1, p) ∧ Inv D a1 ∧
      chain_grows a.begin a1.begin ∧ Block.live a1.begin ⟨p, n⟩ ∧
      Block.fresh a.begin ⟨p, n⟩ := by
  have hround := le_word_mul_round_words n hn
  cases he : a.end_ with
  | none =>
    have hb : a.begin = [] := hinv.null_iff.mpr he
    have hok := arena_alloc_of_null D a n he hb
    refine ⟨_, _, hok, arena_alloc_inv_of_ok D a _ n _ hinv hok, ?_, ?_, ?_⟩
    · intro i r hget; rw [hb] at hget; simp at hget
    · refine ⟨_, List.getElem?_cons_zero, ?_⟩
      simp only [bumped, new_region, round_words_mod]
      omega
    · intro r hget; rw [hb] at hget; simp at hget
  | some e =>
    have hlt := hinv.end_lt e he
    have hstep := arena_alloc_of_end D a n e he
    rcases alloc_from_cases D (round_words n) a.begin e hlt with
      ⟨e1, r, _, hget, _, _, heq⟩ | ⟨_, heq⟩
    · have he1 : e1 < a.begin.length := (List.getElem?_eq_some.mp hget).1
      have hnw := count_add_no_wrap D a hinv hD r (List.getElem?_mem hget) n
      have hok := hstep.trans heq
      refine ⟨_, _, hok, arena_alloc_inv_of_ok D a _ n _ hinv hok, ?_, ?_, ?_⟩
      · intro i r0 hget0
        by_cases hi : e1 = i
        · subst hi
          rw [hget] at hget0; cases hget0
          refine ⟨bumped r (round_words n), List.getElem?_set_self he1, ?_, rfl, rfl⟩
          simp only [bumped, hnw]; omega
        · exact ⟨r0, by rw [List.getElem?_set_ne hi]; exact hget0, le_refl _, rfl, rfl⟩
      · refine ⟨bumped r (round_words n), List.getElem?_set_self he1, ?_⟩
        simp only [bumped, hnw, Nat.mul_add]
        omega
      · intro r0 hget0
        simp only at hget0
        rw [hget] at hget0; cases hget0
        exact le_refl _
    · have hok := hstep.trans heq
      refine ⟨_, _, hok, arena_alloc_inv_of_ok D a _ n _ hinv hok, ?_, ?_, ?_⟩
      · intro i r0 hget0
        have hi : i < a.begin.length := (List.getElem?_eq_some.mp hget0).1
        exact ⟨r0, by rw [List.getElem?_append_left hi]; exact hget0, le_refl _, rfl, rfl⟩
      · refine ⟨bumped (new_region (grow_capacity D (round_words n))) (round_words n), ?_, ?_⟩
        · simp only
          rw [List.getElem?_append_right (le_refl _)]; simp
        · simp only [bumped, new_region, round_words_mod]
          omega
      · intro r0 hget0
        simp only at hget0
        rw [List.getElem?_eq_none (le_refl _)] at hget0
        cases hget0

theorem chain_grows_trans (rs rs1 rs2 : List Region) (h1 : chain_grows rs rs1)
    (h2 : chain_grows rs1 rs2) : chain_grows rs rs2 := by
  intro i r hget
  obtain ⟨r1, hget1, hc1, hk1, hd1⟩ := h1 i r hget
  obtain ⟨r2, hget2, hc2, hk2, hd2⟩ := h2 i r1 hget1
  exact ⟨r2, hget2, le_trans hc1 hc2, hk2.trans hk1, hd2.trans hd1⟩

theorem live_of_grows (rs rs1 : List Region) (b : Block) (h : chain_grows rs rs1)
    (hb : Block.live rs b) : Block.live rs1 b := by
  obtain ⟨r, hget, hle⟩ := hb
  obtain ⟨r1, hget1, hc1, _, _⟩ := h _ r hget
  exact ⟨r1, hget1, le_trans hle (Nat.mul_le_mul_left _ hc1)⟩

theorem fresh_of_grows (rs rs1 : List Region) (b : Block) (h : chain_grows rs rs1)
    (hb : Block.fresh rs1 b) : Block.fresh rs b := by
  intro r hget
  obtain ⟨r1, hget1, hc1, _, _⟩ := h _ r hget
  exact le_trans (Nat.mul_le_mul_left _ hc1) (hb r1 hget1)

theorem disjoint_of_live_fresh (rs : List Region) (b c : Block) (hb : Block.live rs b)
    (hc : Block.fresh rs c) : Block.disjoint b c := by
  obtain ⟨r, hget, hle⟩ := hb
  by_cases hreg : b.ptr.region = c.ptr.region
  · right; left
    rw [hreg] at hget
    exact le_trans hle (hc r hget)
  · left; exact hreg

theorem inside_of_live (D : Nat) (a : Arena) (b : Block) (hinv : Inv D a)
    (hb : Block.live a.begin b) : Block.inside a.begin b := by
  obtain ⟨r, hget, hle⟩ := hb
  exact ⟨r, hget, le_trans hle (Nat.mul_le_mul_left _ (hinv.count_le r (List.getElem?_mem hget)))⟩

/-- Any sequence of allocations of sizes that do not wrap returns blocks of the
requested sizes that are pairwise disjoint, lie below the counts of the final
state and above the counts of the initial one. -/
theorem alloc_seq_blocks (D : Nat) (hD : D ≤ 9223372036854775808) :
    ∀ (sizes : List Nat) (a : Arena), Inv D a → (∀ s ∈ sizes, s + WORD ≤ SIZE_MOD) →
      ∃ a1 bs, alloc_seq D a sizes = .ok (a1, bs) ∧ Inv D a1 ∧
        chain_grows a.begin a1.begin ∧ bs.map Block.size = sizes ∧
        bs.Pairwise Block.disjoint ∧ (∀ b ∈ bs, Block.live a1.begin b) ∧
        (∀ b ∈ bs, Block.fresh a.begin b) := by
  intro sizes
  induction sizes with
  | nil =>
    intro a hinv _
    exact ⟨a, [], rfl, hinv, fun i r h => ⟨r, h, le_refl _, rfl, rfl⟩, rfl,
      List.Pairwise.nil, by simp, by simp⟩
  | cons s rest ih =>
    intro a hinv hs
    obtain ⟨a1, p, hok, hinv1, hg1, hlive1, hfresh1⟩ :=
      arena_alloc_block D a s hinv hD (hs s (List.mem_cons_self _ _))
    obtain ⟨a2, bs, hseq, hinv2, hg2, hsz, hpair, hlive2, hfresh2⟩ :=
      ih a1 hinv1 (fun t ht => hs t (List.mem_cons_of_mem _ ht))
    refine ⟨a2, ⟨p, s⟩ :: bs, ?_, hinv2, chain_grows_trans _ _ _ hg1 hg2, ?_, ?_, ?_, ?_⟩
    · simp only [alloc_seq, hok, hseq]
    · simp [hsz]
    · refine List.Pairwise.cons ?_ hpair
      intro c hc
      exact disjoint_of_live_fresh a1.begin _ c hlive1 (hfresh2 c hc)
    · intro b hb
      rcases List.mem_cons.mp hb with heq | hmem
      · subst heq; exact live_of_grows _ _ _ hg2 hlive1
      · exact hlive2 b hmem
    · intro b hb
      rcases List.mem_cons.mp hb with heq | hmem
      · subst heq; exact hfresh1
      · exact fresh_of_grows _ _ _ hg1 (hfresh2 b hmem)

/-- Non-overlap of allocations for sizes that do not wrap: from a reachable
arena, with a default capacity of at most `2 ^ 63`, every sequence of
`arena_alloc` calls with sizes of at most `2 ^ 64 - 8` bytes returns, and the
blocks returned have the requested sizes, are pairwise disjoint and lie inside
the storage of their regions. -/
theorem alloc_seq_disjoint_of_no_wrap (D : Nat) (a : Arena) (sizes : List Nat)
    (hD : D ≤ 9223372036854775808) (hreach : Reachable D a)
    (hs : ∀ s ∈ sizes, s + WORD ≤ SIZE_MOD) :
    ∃ a1 bs, alloc_seq D a sizes = .ok (a1, bs) ∧ bs.map Block.size = sizes ∧
      bs.Pairwise Block.disjoint ∧ ∀ b ∈ bs, Block.inside a1.begin b := by
  obtain ⟨a1, bs, hseq, hinv1, _, hsz, hpair, hlive, _⟩ :=
    alloc_seq_blocks D hD sizes a (reachable_inv D a hreach) hs
  exact ⟨a1, bs, hseq, hsz, hpair, fun b hb => inside_of_live D a1 b hinv1 (hlive b hb)⟩

/-! ## The byte copy of a growing realloc -/

theorem getElem?_of_shape (rs rs1 : List Region) (i : Nat) (r : Region)
    (hs : rs1.map Region.shape = rs.map Region.shape) (hget : rs[i]? = some r) :
    ∃ r1, rs1[i]? = some r1 ∧ r1.count = r.count ∧ r1.capacity = r.capacity := by
  have h := congrArg (fun l => l[i]?) hs
  simp only [List.getElem?_map, hget, Option.map_some'] at h
  cases h1 : rs1[i]? with
  | none => rw [h1] at h; simp at h
  | some r1 =>
    rw [h1] at h
    simp only [Option.map_some', Option.some.injEq, Region.shape, Prod.mk.injEq] at h
    exact ⟨r1, rfl, h.1, h.2⟩

theorem free_words_cons (r : Region) (rs : List Region) :
    free_words (r :: rs) = (r.capacity - r.count) + free_words rs := by
  simp [free_words]

/-- Regions that all have at most `K` free words hold at most `d * K` free
words together. -/
theorem free_words_skip (rs : List Region) (K : Nat) :
    ∀ (d e : Nat), e + d ≤ rs.length →
      (∀ j r, e ≤ j → j < e + d → rs[j]? = some r → r.capacity - r.count ≤ K) →
      free_words (rs.drop e) ≤ d * K + free_words (rs.drop (e + d)) := by
  intro d
  induction d with
  | zero => intro e _ _; simp
  | succ d ih =>
    intro e hlen hfree
    have he : e < rs.length := by omega
    have h1 := hfree e rs[e] (le_refl _) (by omega) (List.getElem?_eq_getElem he)
    have h2 := ih (e + 1) (by omega)
      (fun j r hj1 hj2 hget => hfree j r (by omega) (by omega) hget)
    rw [List.drop_eq_getElem_cons he, free_words_cons]
    have h3 : e + 1 + d = e + (d + 1) := by omega
    rw [h3] at h2
    rw [Nat.succ_mul]
    omega

/-- A sequence of requests, none larger than `m` words, is served without a
new region when its cumulative size, plus `m - 1` words of slack for every
region after the cursor, fits in the words that are free from the cursor on. -/
theorem alloc_seq_no_growth (D m : Nat) (hD : D ≤ 9223372036854775808) :
    ∀ (sizes : List Nat) (rs : List Region) (e : Nat), Inv D ⟨rs, some e⟩ →
      (∀ s ∈ sizes, round_words s ≤ m) →
      total_words sizes + (rs.length - 1 - e) * (m - 1) ≤ free_words (rs.drop e) →
      ∃ a1 bs, alloc_seq D ⟨rs, some e⟩ sizes = .ok (a1, bs) ∧
        a1.begin.length = rs.length := by
  intro sizes
  induction sizes with
  | nil => intro rs e _ _ _; exact ⟨_, _, rfl, rfl⟩
  | cons s rest ih =>
    intro rs e hinv hm hfit
    have he : e < rs.length := hinv.end_lt e rfl
    have hsm : round_words s ≤ m := hm s (List.mem_cons_self _ _)
    have hrest : ∀ t ∈ rest, round_words t ≤ m :=
      fun t ht => hm t (List.mem_cons_of_mem _ ht)
    have htw : total_words (s :: rest) = round_words s + total_words rest := by
      simp [total_words]
    rw [htw] at hfit
    have hroom : ∀ r, r ∈ rs → lacks_room r (round_words s) = true →
        1 ≤ round_words s ∧ r.capacity - r.count ≤ round_words s - 1 := by
      intro r hr hl
      have hnw := count_add_no_wrap D ⟨rs, some e⟩ hinv hD r hr s
      have hc := hinv.count_le r hr
      simp only [lacks_room, hnw, decide_eq_true_eq] at hl
      omega
    have hstep := arena_alloc_of_end D ⟨rs, some e⟩ s e rfl
    rcases alloc_from_cases D (round_words s) rs e he with
      ⟨e1, r, hee1, hget, hok, hskip, heq⟩ | ⟨hall, _⟩
    · have he1 : e1 < rs.length := (List.getElem?_eq_some.mp hget).1
      have hrmem : r ∈ rs := List.getElem?_mem hget
      have hr_eq : rs[e1] = r := (List.getElem?_eq_some.mp hget).2
      have hinv1 : Inv D ⟨rs.set e1 (bumped r (round_words s)), some e1⟩ :=
        arena_alloc_inv_of_ok D ⟨rs, some e⟩ _ s _ hinv (hstep.trans heq)
      have hnw := count_add_no_wrap D ⟨rs, some e⟩ hinv hD r hrmem s
      have hle : r.count + round_words s ≤ r.capacity := by
        have := (lacks_room_false_iff r (round_words s)).mp hok
        rw [hnw] at this; exact this
      have hsk := free_words_skip rs (m - 1) (e1 - e) e (by omega)
        (fun j r' hj1 hj2 hgetj => by
          have := hroom r' (List.getElem?_mem hgetj)
            (hskip j r' hj1 (by omega) hgetj)
          omega)
      have hee : e + (e1 - e) = e1 := by omega
      rw [hee] at hsk
      have hdrop : rs.drop e1 = r :: rs.drop (e1 + 1) := by
        rw [List.drop_eq_getElem_cons he1, hr_eq]
      have hlen1 : e1 < (rs.set e1 (bumped r (round_words s))).length := by
        rw [List.length_set]; exact he1
      have hdrop1 : (rs.set e1 (bumped r (round_words s))).drop e1
          = bumped r (round_words s) :: rs.drop (e1 + 1) := by
        rw [List.drop_eq_getElem_cons hlen1, List.getElem_set_self,
          List.drop_set_of_lt _ _ (Nat.lt_succ_self e1)]
      have hsplit : rs.length - 1 - e = (rs.length - 1 - e1) + (e1 - e) := by omega
      have hbudget : total_words rest + ((rs.set e1 (bumped r (round_words s))).length - 1 - e1)
          * (m - 1) ≤ free_words ((rs.set e1 (bumped r (round_words s))).drop e1) := by
        rw [hdrop1, free_words_cons, List.length_set]
        rw [hdrop, free_words_cons] at hsk
        rw [hsplit, Nat.add_mul] at hfit
        simp only [bumped, hnw]
        omega
      obtain ⟨a1, bs, hseq, hlen⟩ := ih _ e1 hinv1 hrest hbudget
      refine ⟨a1, ⟨⟨e1, WORD * r.count⟩, s⟩ :: bs, ?_, ?_⟩
      · simp only [alloc_seq, hstep, heq, hseq]
      · rw [hlen, List.length_set]
    · exfalso
      have hfirst := hroom rs[e] (List.getElem_mem _)
        (hall e rs[e] (le_refl _) (List.getElem?_eq_getElem he))
      have hsk := free_words_skip rs (round_words s - 1) (rs.length - e) e (by omega)
        (fun j r' hj1 _ hgetj =>
          (hroom r' (List.getElem?_mem hgetj) (hall j r' hj1 hgetj)).2)
      have hee : e + (rs.length - e) = rs.length := by omega
      rw [hee, List.drop_length] at hsk
      have hsplit : rs.length - e = (rs.length - 1 - e) + 1 := by omega
      rw [hsplit, Nat.add_mul, Nat.one_mul] at hsk
      have hmono : (rs.length - 1 - e) * (round_words s - 1)
          ≤ (rs.length - 1 - e) * (m - 1) :=
        Nat.mul_le_mul_left _ (by omega)
      have hz : free_words ([] : List Region) = 0 := rfl
      rw [hz] at hsk
      omega

theorem free_words_reset (rs : List Region) :
    free_words (rs.map (fun r => (⟨0, r.capacity, r.data⟩ : Region))) = total_capacity rs := by
  simp [free_words, total_capacity, Function.comp_def]

/-! ## The claims -/

/-- C1, evaluated where it fails: two calls `arena_alloc` of `2 ^ 64 - 1` bytes
on the zero-initialised arena (default capacity of the source) both return
offset 0 of the only region and leave its count at 0, because the request
rounds to 0 words; the two blocks of `2 ^ 64 - 1` bytes coincide and neither
lies inside the 8192 words of the region. -/
theorem alloc_wrapped_size_overlap :
    Reachable REGION_DEFAULT_CAPACITY arena_empty ∧
    0 < 18446744073709551615 ∧ 18446744073709551615 < SIZE_MOD ∧
    round_words 18446744073709551615 = 0 ∧
    alloc_seq REGION_DEFAULT_CAPACITY arena_empty
        [18446744073709551615, 18446744073709551615]
      = .ok (⟨[⟨0, 8192, fun _ => 0⟩], some 0⟩,
             [⟨⟨0, 0⟩, 18446744073709551615⟩, ⟨⟨0, 0⟩, 18446744073709551615⟩]) ∧
    ¬ Block.disjoint ⟨⟨0, 0⟩, 18446744073709551615⟩ ⟨⟨0, 0⟩, 18446744073709551615⟩ ∧
    ¬ Block.inside [⟨0, 8192, fun _ => 0⟩] ⟨⟨0, 0⟩, 18446744073709551615⟩ := by
  refine ⟨Reachable.empty, by decide, by decide, by decide, by rfl, by decide, ?_⟩
  rintro ⟨r, hr, hle⟩
  simp only [List.getElem?_cons_zero, Option.some.injEq] at hr
  subst hr
  simp only [WORD] at hle
  omega

/-- Counterexamples to C3 as stated.  After `arena_reset` of the reachable arena
with two regions of 8192 words, three requests of 5000 words each (15000 words
in all, within the 16384 words of capacity) make `arena_alloc` create a third
region.  And after `arena_reset` of the zero-initialised arena, which has no
region and a total capacity of 0, a request of 0 bytes creates a region. -/
theorem reuse_after_reset_counterexample :
    (Reachable REGION_DEFAULT_CAPACITY two_full_regions ∧
      total_words [40000, 40000, 40000] ≤ total_capacity two_full_regions.begin ∧
      two_full_regions.begin.length = 2 ∧
      alloc_seq REGION_DEFAULT_CAPACITY (arena_reset two_full_regions) [40000, 40000, 40000]
        = .ok (⟨[⟨5000, 8192, fun _ => 0⟩, ⟨5000, 8192, fun _ => 0⟩,
                 ⟨5000, 8192, fun _ => 0⟩], some 2⟩,
               [⟨⟨0, 0⟩, 40000⟩, ⟨⟨1, 0⟩, 40000⟩, ⟨⟨2, 0⟩, 40000⟩])) ∧
    (Reachable REGION_DEFAULT_CAPACITY arena_empty ∧
      total_words [0] ≤ total_capacity arena_empty.begin ∧
      arena_empty.begin.length = 0 ∧
      alloc_seq REGION_DEFAULT_CAPACITY (arena_reset arena_empty) [0]
        = .ok (⟨[⟨0, 8192, fun _ => 0⟩], some 0⟩, [⟨⟨0, 0⟩, 0⟩])) :=
  ⟨⟨two_full_regions_reachable, by decide, rfl, by rfl⟩,
   ⟨Reachable.empty, by decide, rfl, by rfl⟩⟩

/-- C3, amended: after `arena_reset` of a reachable arena that has at least one
region (default capacity at most `2 ^ 63`), a sequence of `arena_alloc` calls
whose requests are at most `m` words each returns and creates no new region
when its cumulative word-rounded size plus `m - 1` words for every region but
one does not exceed the sum of the capacities of the regions. -/
theorem reuse_after_reset (D m : Nat) (a : Arena) (sizes : List Nat)
    (hD : D ≤ 9223372036854775808) (hreach : Reachable D a) (hne : a.begin ≠ [])
    (hm : ∀ s ∈ sizes, round_words s ≤ m)
    (hfit : total_words sizes + (a.begin.length - 1) * (m - 1)
      ≤ total_capacity a.begin) :
    ∃ a1 bs, alloc_seq D (arena_reset a) sizes = .ok (a1, bs) ∧
      a1.begin.length = a.begin.length := by
  have hinv := arena_reset_inv D a (reachable_inv D a hreach)
  have hreset : arena_reset a
      = ⟨a.begin.map (fun r => (⟨0, r.capacity, r.data⟩ : Region)), some 0⟩ := by
    cases hb : a.begin with
    | nil => exact absurd hb hne
    | cons r rest => simp [arena_reset, hb]
  rw [hreset] at hinv ⊢
  obtain ⟨a1, bs, hseq, hlen⟩ := alloc_seq_no_growth D m hD sizes _ 0 hinv hm (by
    rw [List.drop_zero, free_words_reset, List.length_map]
    exact hfit)
  exact ⟨a1, bs, hseq, by rw [hlen, List.length_map]⟩

theorem reuse_after_reset_witness :
    (REGION_DEFAULT_CAPACITY ≤ 9223372036854775808 ∧
      Reachable REGION_DEFAULT_CAPACITY two_full_regions ∧ two_full_regions.begin ≠ [] ∧
      (∀ s ∈ [40000, 24000, 16000], round_words s ≤ 5000) ∧
      total_words [40000, 24000, 16000] + (two_full_regions.begin.length - 1) * (5000 - 1)
        ≤ total_capacity two_full_regions.begin) ∧
    ∃ a1 bs, alloc_seq REGION_DEFAULT_CAPACITY (arena_reset two_full_regions)
        [40000, 24000, 16000] = .ok (a1, bs) ∧
      a1.begin.length = two_full_regions.begin.length :=
  ⟨⟨by decide, two_full_regions_reachable, List.cons_ne_nil _ _, by decide, by decide⟩,
   reuse_after_reset REGION_DEFAULT_CAPACITY 5000 two_full_regions [40000, 24000, 16000]
     (by decide) two_full_regions_reachable (List.cons_ne_nil _ _) (by decide) (by decide)⟩

/-- C5, evaluated where it fails: in the reachable arena whose only region is
full, the block of 65536 bytes at offset 0 was returned by `arena_alloc`; a
growing `arena_realloc` of it to `2 ^ 64 - 1` bytes rounds the new size to 0
words, gets the address one past the storage of the region, and the first byte
copied is written outside the region. -/
theorem realloc_wrapped_size_out_of_bounds :
    arena_alloc REGION_DEFAULT_CAPACITY arena_empty 65536
      = .ok (full_region_arena, ⟨0, 0⟩) ∧
    65536 < 18446744073709551615 ∧ 18446744073709551615 < SIZE_MOD ∧
    arena_alloc REGION_DEFAULT_CAPACITY full_region_arena 18446744073709551615
      = .ok (full_region_arena, ⟨0, 65536⟩) ∧
    arena_realloc REGION_DEFAULT_CAPACITY full_region_arena ⟨0, 0⟩ 65536
        18446744073709551615
      = .error Fault.bad_access :=
  ⟨by rfl, by decide, by decide, by rfl, by rfl⟩


/-- C2: in every state reachable from the zero-initialised arena through
`arena_alloc`, `arena_realloc`, `arena_reset` and `arena_free`, every region of
the chain has `count ≤ capacity`. -/
theorem region_count_le_capacity (D : Nat) (a : Arena) (h : Reachable D a) :
    ∀ r ∈ a.begin, r.count ≤ r.capacity :=
  (reachable_inv D a h).count_le

theorem region_count_le_capacity_witness :
    Reachable 8 sample_arena ∧ ∀ r ∈ sample_arena.begin, r.count ≤ r.capacity :=
  ⟨sample_arena_reachable, region_count_le_capacity 8 sample_arena sample_arena_reachable⟩

/-- C4: a shrinking `arena_realloc` (`newsz ≤ oldsz`) returns the pointer it
was given and leaves the whole arena state as it was. -/
theorem realloc_shrink_identity (D : Nat) (a : Arena) (p : Ptr) (oldsz newsz : Nat)
    (h : newsz ≤ oldsz) : arena_realloc D a p oldsz newsz = .ok (a, p) := by
  simp [arena_realloc, h]

theorem realloc_shrink_identity_witness :
    (16 : Nat) ≤ 24 ∧
      arena_realloc REGION_DEFAULT_CAPACITY sample_arena ⟨0, 8⟩ 24 16
        = .ok (sample_arena, ⟨0, 8⟩) :=
  ⟨by decide, realloc_shrink_identity REGION_DEFAULT_CAPACITY sample_arena ⟨0, 8⟩ 24 16
    (by decide)⟩

/-- C6: `arena_free` hands every region of the chain to `free_region` and
leaves `begin` and `end` empty, so the arena is the zero-initialised arena with
zero regions, and any `arena_alloc` made next behaves as it does on a fresh
arena. -/
theorem free_restores_initial_state (D : Nat) (a : Arena) (n : Nat) :
    released_regions a.begin = a.begin ∧
    (arena_free a).begin = [] ∧ (arena_free a).end_ = none ∧
    arena_free a = arena_empty ∧ (arena_free a).begin.length = 0 ∧
    arena_alloc D (arena_free a) n = arena_alloc D arena_empty n := by
  refine ⟨?_, rfl, rfl, rfl, rfl, rfl⟩
  induction a.begin with
  | nil => rfl
  | cons r rest ih => simp [released_regions, ih]

/-- C7: the first `arena_alloc` on the zero-initialised arena, for a request
that rounds to `n = round_words size_bytes` words, returns word offset 0 and
leaves exactly one region, which is both `begin` and `end`, with
`capacity = max D n` (so `capacity ≥ n`) and `count = n`. -/
theorem first_alloc_on_empty (D size_bytes : Nat) :
    ∃ a1 r, arena_alloc D arena_empty size_bytes = .ok (a1, ⟨0, 0⟩) ∧
      a1.begin = [r] ∧ a1.end_ = some 0 ∧
      r.capacity = max D (round_words size_bytes) ∧
      round_words size_bytes ≤ r.capacity ∧
      r.count = round_words size_bytes := by
  refine ⟨_, _, arena_alloc_of_null D arena_empty size_bytes rfl rfl, rfl, rfl, ?_, ?_, ?_⟩
  · simp only [bumped, new_region, grow_capacity]
    split
    · rw [max_eq_right (by omega)]
    · rw [max_eq_left (by omega)]
  · simp only [bumped, new_region, grow_capacity]
    split <;> omega
  · simp only [bumped, new_region]
    exact round_words_mod size_bytes

/-- C8: with a default capacity `D` (positive, and with `D + 1` representable
as a `size_t`), `D` one-word allocations on the zero-initialised arena leave
exactly one region with `count = capacity = D` and return the word offsets
`0, 1, ..., D - 1` of that region in order; one more one-word allocation then
leaves exactly two regions, the second one holding one word and being the
cursor, and returns offset 0 of that second region. -/
theorem exact_fill_then_growth (D : Nat) (sizes : List Nat) (last : Nat)
    (hpos : 0 < D) (hD : D + 1 < SIZE_MOD) (hlen : sizes.length = D)
    (hone : ∀ s ∈ sizes, round_words s = 1) (hlast : round_words last = 1) :
    ∃ bs, alloc_seq D arena_empty sizes
        = .ok (⟨[⟨D, D, fun _ => 0⟩], some 0⟩, bs) ∧
      bs.map Block.ptr = (List.range D).map (fun i => ⟨0, WORD * i⟩) ∧
      arena_alloc D ⟨[⟨D, D, fun _ => 0⟩], some 0⟩ last
        = .ok (⟨[⟨D, D, fun _ => 0⟩, ⟨1, D, fun _ => 0⟩], some 1⟩, ⟨1, 0⟩) := by
  have hgrow : grow_capacity D 1 = D := by
    unfold grow_capacity; rw [if_neg (by omega)]
  have hmod1 : (0 + 1) % SIZE_MOD = 1 := Nat.mod_eq_of_lt (by omega)
  cases sizes with
  | nil => simp at hlen; omega
  | cons s rest =>
    simp only [List.length_cons] at hlen
    have hs : round_words s = 1 := hone s (List.mem_cons_self _ _)
    have hfirst : arena_alloc D arena_empty s
        = .ok (⟨[⟨1, D, fun _ => 0⟩], some 0⟩, ⟨0, 0⟩) := by
      rw [arena_alloc_of_null D arena_empty s rfl rfl, hs, hgrow]
      simp only [bumped, new_region, hmod1]
    obtain ⟨bs, hbs, hptr⟩ := alloc_seq_one_word_fits D (fun _ => 0) (by omega) rest 1
      (fun t ht => hone t (List.mem_cons_of_mem _ ht)) (by omega)
    have hcount : 1 + rest.length = D := by omega
    rw [hcount] at hbs
    refine ⟨⟨⟨0, 0⟩, s⟩ :: bs, ?_, ?_, ?_⟩
    · simp only [alloc_seq, hfirst, hbs]
    · rw [← hlen]
      simp only [List.map_cons, hptr, List.range_succ_eq_map, List.map_map, Nat.mul_zero]
      congr 1
      apply List.map_congr_left
      intro i _
      simp only [Function.comp, Nat.succ_eq_add_one]
      have : 1 + i = i + 1 := by omega
      rw [this]
    · have hmod : (D + 1) % SIZE_MOD = D + 1 := Nat.mod_eq_of_lt hD
      have hl : lacks_room ⟨D, D, fun _ => 0⟩ 1 = true := by
        simp [lacks_room, hmod]
      rw [arena_alloc_of_end D _ last 0 rfl, hlast]
      simp only [alloc_from, advance_end, List.drop_zero, List.getElem?_cons_zero, hl, if_true,
        List.length_singleton, Nat.zero_add, Nat.lt_irrefl, if_false, List.take_succ_cons,
        List.take_zero, List.singleton_append, bump, List.getElem?_cons_succ, hgrow,
        List.set_cons_succ, List.set_cons_zero, bumped, new_region, hmod1, Nat.mul_zero]

theorem exact_fill_then_growth_witness :
    (0 < 8 ∧ 8 + 1 < SIZE_MOD ∧ [8, 8, 8, 8, 8, 8, 8, 8].length = 8 ∧
      (∀ s ∈ [8, 8, 8, 8, 8, 8, 8, 8], round_words s = 1) ∧ round_words 8 = 1) ∧
    ∃ bs, alloc_seq 8 arena_empty [8, 8, 8, 8, 8, 8, 8, 8]
        = .ok (⟨[⟨8, 8, fun _ => 0⟩], some 0⟩, bs) ∧
      bs.map Block.ptr = (List.range 8).map (fun i => ⟨0, WORD * i⟩) ∧
      arena_alloc 8 ⟨[⟨8, 8, fun _ => 0⟩], some 0⟩ 8
        = .ok (⟨[⟨8, 8, fun _ => 0⟩, ⟨1, 8, fun _ => 0⟩], some 1⟩, ⟨1, 0⟩) :=
  ⟨⟨by decide, by decide, by decide, by decide, by decide⟩,
   exact_fill_then_growth 8 [8, 8, 8, 8, 8, 8, 8, 8] 8 (by decide) (by decide) (by decide)
     (by decide) (by decide)⟩

/-- C9: in every reachable state `begin` is empty exactly when `end` is empty,
and a non-empty `end` points to a region of the chain that starts at `begin`
(the region found after following `next` that many times). -/
theorem arena_structure (D : Nat) (a : Arena) (h : Reachable D a) :
    (a.begin = [] ↔ a.end_ = none) ∧
      ∀ e, a.end_ = some e → ∃ r rest, a.begin.drop e = r :: rest := by
  have hinv := reachable_inv D a h
  refine ⟨hinv.null_iff, ?_⟩
  intro e he
  have hlt := hinv.end_lt e he
  exact ⟨a.begin[e], a.begin.drop (e + 1), List.drop_eq_getElem_cons hlt⟩

theorem arena_structure_witness :
    Reachable 8 sample_arena ∧
      ((sample_arena.begin = [] ↔ sample_arena.end_ = none) ∧
        ∀ e, sample_arena.end_ = some e → ∃ r rest, sample_arena.begin.drop e = r :: rest) :=
  ⟨sample_arena_reachable, arena_structure 8 sample_arena sample_arena_reachable⟩

/-- C10: `arena_reset` sets the count of every region to 0 and `end` to
`begin`; the chain keeps its regions in the same order, each with its capacity
and storage, and on the zero-initialised arena the call changes nothing. -/
theorem reset_effect_and_frame (a : Arena) :
    (∀ r ∈ (arena_reset a).begin, r.count = 0) ∧
    ((arena_reset a).end_ = match a.begin with
      | [] => none
      | _ :: _ => some 0) ∧
    (arena_reset a).begin.length = a.begin.length ∧
    (arena_reset a).begin.map Region.capacity = a.begin.map Region.capacity ∧
    (arena_reset a).begin.map Region.data = a.begin.map Region.data ∧
    arena_reset arena_empty = arena_empty := by
  refine ⟨?_, rfl, by simp [arena_reset], by simp [arena_reset, Function.comp_def],
    by simp [arena_reset, Function.comp_def], rfl⟩
  intro r hr
  simp only [arena_reset, List.mem_map] at hr
  obtain ⟨r0, _, hr0⟩ := hr
  subst hr0
  rfl

/-! ## One allocation, in terms of free words -/

theorem grow_capacity_eq_max (D n : Nat) : grow_capacity D n = max D n := by
  unfold grow_capacity
  split
  · rw [max_eq_right (by omega)]
  · rw [max_eq_left (by omega)]

/-- Without wrap the room test of lines 107 and 111 compares the request with
the free words of the region. -/
theorem lacks_room_iff (D : Nat) (a : Arena) (hinv : Inv D a)
    (hD : D ≤ 9223372036854775808) (r : Region) (hr : r ∈ a.begin) (sb : Nat) :
    lacks_room r (round_words sb) = true ↔ r.capacity - r.count < round_words sb := by
  have hnw := count_add_no_wrap D a hinv hD r hr sb
  have hc := hinv.count_le r hr
  simp only [lacks_room, hnw, decide_eq_true_eq]
  omega

/-- The outcome of `arena_alloc` on a non-empty arena that satisfies the
invariant: the request is served by the first region at or after the cursor
that has enough free words, or no such region exists and a region is appended. -/
theorem arena_alloc_outcome (D : Nat) (a : Arena) (sb e : Nat) (hinv : Inv D a)
    (hD : D ≤ 9223372036854775808) (he : a.end_ = some e) :
    (∃ e1 r, e ≤ e1 ∧ a.begin[e1]? = some r ∧ round_words sb ≤ r.capacity - r.count ∧
        (∀ j r', e ≤ j → j < e1 → a.begin[j]? = some r' →
          r'.capacity - r'.count < round_words sb) ∧
        arena_alloc D a sb
          = .ok (⟨a.begin.set e1 ⟨r.count + round_words sb, r.capacity, r.data⟩, some e1⟩,
                 ⟨e1, WORD * r.count⟩)) ∨
    ((∀ j r', e ≤ j → a.begin[j]? = some r' → r'.capacity - r'.count < round_words sb) ∧
        arena_alloc D a sb
          = .ok (⟨a.begin ++ [⟨round_words sb, max D (round_words sb), fun _ => 0⟩],
                  some a.begin.length⟩, ⟨a.begin.length, 0⟩)) := by
  have hlt := hinv.end_lt e he
  have hstep := arena_alloc_of_end D a sb e he
  rcases alloc_from_cases D (round_words sb) a.begin e hlt with
    ⟨e1, r, hee1, hget, hroom, hskip, heq⟩ | ⟨hall, heq⟩
  · left
    have hrmem : r ∈ a.begin := List.getElem?_mem hget
    have hnw := count_add_no_wrap D a hinv hD r hrmem sb
    refine ⟨e1, r, hee1, hget, ?_, ?_, ?_⟩
    · have h1 := (lacks_room_iff D a hinv hD r hrmem sb).not
      rw [hroom] at h1
      have := h1.mp (by simp)
      omega
    · intro j r' hj1 hj2 hgetj
      exact (lacks_room_iff D a hinv hD r' (List.getElem?_mem hgetj) sb).mp
        (hskip j r' hj1 hj2 hgetj)
    · rw [hstep, heq]
      simp only [bumped, hnw]
  · right
    refine ⟨?_, ?_⟩
    · intro j r' hj1 hgetj
      exact (lacks_room_iff D a hinv hD r' (List.getElem?_mem hgetj) sb).mp
        (hall j r' hj1 hgetj)
    · rw [hstep, heq]
      simp only [bumped, new_region, round_words_mod, grow_capacity_eq_max]

theorem walk_sample_reachable : Reachable 8 walk_sample := by
  have h : arena_alloc 8 (arena_reset sample_arena) 48 = .ok (walk_sample, ⟨0, 0⟩) := by rfl
  exact Reachable.alloc 48 (Reachable.reset sample_arena_reachable) (by decide) h

/-! ## Assertions, tail of the chain, pointer identity -/

/-- An allocation that changes the number of regions returns offset 0 of the
region it appended. -/
theorem alloc_new_region_ptr (D : Nat) (a a1 : Arena) (n : Nat) (q : Ptr) (hinv : Inv D a)
    (hok : arena_alloc D a n = .ok (a1, q))
    (hlen : a1.begin.length ≠ a.begin.length) : q.region = a.begin.length := by
  cases he : a.end_ with
  | none =>
    have hb : a.begin = [] := hinv.null_iff.mpr he
    rw [arena_alloc_of_null D a n he hb] at hok
    cases hok
    rw [hb]; rfl
  | some e =>
    rw [arena_alloc_of_end D a n e he] at hok
    rcases alloc_from_cases D (round_words n) a.begin e (hinv.end_lt e he) with
      ⟨e1, r, _, _, _, _, heq⟩ | ⟨_, heq⟩
    · rw [heq] at hok
      cases hok
      exact absurd (List.length_set _ _ _) hlen
    · rw [heq] at hok
      cases hok
      rfl

theorem arena_alloc_tail (D : Nat) (a a1 : Arena) (n : Nat) (p : Ptr) (hinv : Inv D a)
    (ht : TailUnused a) (hok : arena_alloc D a n = .ok (a1, p)) : TailUnused a1 := by
  cases he : a.end_ with
  | none =>
    have hb : a.begin = [] := hinv.null_iff.mpr he
    rw [arena_alloc_of_null D a n he hb] at hok
    cases hok
    intro e j r hend hj hget
    simp only [Option.some.injEq] at hend
    subst hend
    rw [List.getElem?_eq_none (by simp only [List.length_singleton]; omega)] at hget
    cases hget
  | some e =>
    rw [arena_alloc_of_end D a n e he] at hok
    rcases alloc_from_cases D (round_words n) a.begin e (hinv.end_lt e he) with
      ⟨e1, r, hee1, _, _, _, heq⟩ | ⟨_, heq⟩
    · rw [heq] at hok
      cases hok
      intro e2 j r2 hend hj hget
      simp only [Option.some.injEq] at hend
      subst hend
      simp only at hget
      rw [List.getElem?_set_ne (by omega)] at hget
      exact ht e j r2 he (by omega) hget
    · rw [heq] at hok
      cases hok
      intro e2 j r2 hend hj hget
      simp only [Option.some.injEq] at hend
      subst hend
      simp only at hget
      rw [List.getElem?_eq_none (by simp only [List.length_append, List.length_singleton]; omega)]
        at hget
      cases hget

theorem tail_of_shape (a a1 : Arena) (ht : TailUnused a)
    (hs : a1.begin.map Region.shape = a.begin.map Region.shape)
    (he : a1.end_ = a.end_) : TailUnused a1 := by
  intro e j r1 hend hj hget
  obtain ⟨r, hget0, hcount, _⟩ := getElem?_of_shape a1.begin a.begin j r1 hs.symm hget
  rw [← ht e j r (he ▸ hend) hj hget0]
  exact hcount.symm

theorem arena_realloc_tail (D : Nat) (a a1 : Arena) (p q : Ptr) (oldsz newsz : Nat)
    (hinv : Inv D a) (ht : TailUnused a)
    (hok : arena_realloc D a p oldsz newsz = .ok (a1, q)) : TailUnused a1 := by
  unfold arena_realloc at hok
  split at hok
  · cases hok; exact ht
  · split at hok
    · cases hok
    · next a2 newptr halloc =>
      have h2 := arena_alloc_tail D a a2 newsz newptr hinv ht halloc
      split at hok
      · cases hok
      · next rs hcopy =>
        cases hok
        exact tail_of_shape a2 _ h2 (copy_bytes_shape _ _ _ _ _ _ hcopy) rfl

theorem arena_reset_tail (a : Arena) : TailUnused (arena_reset a) := by
  intro e j r _ _ hget
  simp only [arena_reset, List.getElem?_map] at hget
  cases h : a.begin[j]? with
  | none => rw [h] at hget; cases hget
  | some r0 => rw [h] at hget; cases hget; rfl

theorem reachable_tail_unused (D : Nat) (a : Arena) (h : Reachable D a) : TailUnused a := by
  induction h with
  | empty => intro e j r hend; cases hend
  | alloc n hr _ hok ih => exact arena_alloc_tail D _ _ n _ (reachable_inv D _ hr) ih hok
  | realloc p oldsz newsz hr _ _ hok ih =>
    exact arena_realloc_tail D _ _ p _ oldsz newsz (reachable_inv D _ hr) ih hok
  | reset _ _ => exact arena_reset_tail _
  | free _ _ => intro e j r hend; cases hend

/-- Word rounding is the ceiling of `size_bytes / 8` for every size of at most
`2 ^ 64 - 8` bytes. -/
theorem round_words_ceiling (size_bytes : Nat) (h : size_bytes + WORD ≤ SIZE_MOD) :
    size_bytes ≤ round_words size_bytes * WORD ∧
      round_words size_bytes * WORD < size_bytes + WORD := by
  unfold round_words
  rw [size_mod_eq] at *
  simp only [WORD] at *
  rw [Nat.mod_eq_of_lt (by omega)]
  omega

/-- Every size in the last seven values of `size_t` rounds to 0 words. -/
theorem round_words_wrapped (size_bytes : Nat) (h1 : SIZE_MOD < size_bytes + WORD)
    (h2 : size_bytes < SIZE_MOD) : round_words size_bytes = 0 := by
  unfold round_words
  rw [size_mod_eq] at *
  simp only [WORD] at *
  omega

/-! ## The claims, continued -/

/-- C11, evaluated where it fails: the size `2 ^ 64 - 1`, a `size_t` value,
rounds to 0 words, because `size_bytes + 8 - 1` wraps to 6; the rounded request
of 0 bytes is smaller than the request. -/
theorem round_words_reduces_request :
    18446744073709551615 < SIZE_MOD ∧
    (18446744073709551615 + WORD - 1) % SIZE_MOD = 6 ∧
    round_words 18446744073709551615 = 0 ∧
    ¬ (18446744073709551615 ≤ round_words 18446744073709551615 * WORD) := by
  decide

/-- C18: in every reachable state every region strictly after the `end` cursor
has `count = 0`. -/
theorem unused_tail (D : Nat) (a : Arena) (h : Reachable D a) :
    ∀ (e j : Nat) (r : Region), a.end_ = some e → e < j → a.begin[j]? = some r →
      r.count = 0 :=
  reachable_tail_unused D a h

theorem unused_tail_witness :
    Reachable 8 walk_sample ∧
      ∀ (e j : Nat) (r : Region), walk_sample.end_ = some e → e < j →
        walk_sample.begin[j]? = some r → r.count = 0 :=
  ⟨walk_sample_reachable, unused_tail 8 walk_sample walk_sample_reachable⟩

/-- C13: on a non-empty reachable arena (default capacity at most `2 ^ 63`)
with the cursor at region `e`, a request of `n = round_words size_bytes` words
is served by the first region at or after `e` whose free words
`capacity - count` are at least `n`; never by a region before the cursor,
whatever room it has; and a region is created exactly when no region at or
after the cursor has `n` free words. -/
theorem first_fit_from_cursor (D : Nat) (a : Arena) (size_bytes e : Nat)
    (hD : D ≤ 9223372036854775808) (h : Reachable D a) (he : a.end_ = some e) :
    ∃ a1 p, arena_alloc D a size_bytes = .ok (a1, p) ∧ e ≤ p.region ∧
      a1.end_ = some p.region ∧
      (∀ j r, e ≤ j → j < p.region → a.begin[j]? = some r →
        r.capacity - r.count < round_words size_bytes) ∧
      ((∃ r, a.begin[p.region]? = some r ∧
          round_words size_bytes ≤ r.capacity - r.count ∧
          a1.begin.length = a.begin.length) ∨
        (p.region = a.begin.length ∧ a1.begin.length = a.begin.length + 1)) ∧
      (a1.begin.length = a.begin.length + 1 ↔
        ∀ j r, e ≤ j → a.begin[j]? = some r →
          r.capacity - r.count < round_words size_bytes) := by
  have hinv := reachable_inv D a h
  have hlt := hinv.end_lt e he
  rcases arena_alloc_outcome D a size_bytes e hinv hD he with
    ⟨e1, r, hee1, hget, hroom, hskip, hok⟩ | ⟨hall, hok⟩
  · refine ⟨_, _, hok, hee1, rfl, hskip, Or.inl ⟨r, hget, hroom, List.length_set _ _ _⟩, ?_⟩
    constructor
    · intro hlen
      simp only [List.length_set] at hlen
      omega
    · intro hall
      have := hall e1 r hee1 hget
      omega
  · refine ⟨_, _, hok, Nat.le_of_lt hlt, rfl, ?_, Or.inr ⟨rfl, by simp⟩, ?_⟩
    · intro j r hj1 _ hgetj
      exact hall j r hj1 hgetj
    · constructor
      · intro _; exact hall
      · intro _; simp

theorem first_fit_from_cursor_witness :
    (8 ≤ 9223372036854775808 ∧ Reachable 8 walk_sample ∧ walk_sample.end_ = some 0) ∧
    ∃ a1 p, arena_alloc 8 walk_sample 24 = .ok (a1, p) ∧ 0 ≤ p.region ∧
      a1.end_ = some p.region ∧
      (∀ j r, 0 ≤ j → j < p.region → walk_sample.begin[j]? = some r →
        r.capacity - r.count < round_words 24) ∧
      ((∃ r, walk_sample.begin[p.region]? = some r ∧
          round_words 24 ≤ r.capacity - r.count ∧
          a1.begin.length = walk_sample.begin.length) ∨
        (p.region = walk_sample.begin.length ∧
          a1.begin.length = walk_sample.begin.length + 1)) ∧
      (a1.begin.length = walk_sample.begin.length + 1 ↔
        ∀ j r, 0 ≤ j → walk_sample.begin[j]? = some r →
          r.capacity - r.count < round_words 24) :=
  ⟨⟨by decide, walk_sample_reachable, rfl⟩,
   first_fit_from_cursor 8 walk_sample 24 0 (by decide) walk_sample_reachable rfl⟩

/-- C14: on a non-empty reachable arena (default capacity at most `2 ^ 63`)
where no region at or after the cursor has `n = round_words size_bytes` free
words, `arena_alloc` appends exactly one region of capacity `max D n` after the
last region, leaves the earlier regions as they were and in their order, makes
the new region the cursor, sets its count to `n` and returns its offset 0. -/
theorem growth_step (D : Nat) (a : Arena) (size_bytes e : Nat)
    (hD : D ≤ 9223372036854775808) (h : Reachable D a) (he : a.end_ = some e)
    (hfull : ∀ j r, e ≤ j → a.begin[j]? = some r →
      r.capacity - r.count < round_words size_bytes) :
    arena_alloc D a size_bytes
      = .ok (⟨a.begin ++ [⟨round_words size_bytes, max D (round_words size_bytes),
                fun _ => 0⟩], some a.begin.length⟩, ⟨a.begin.length, 0⟩) := by
  have hinv := reachable_inv D a h
  rcases arena_alloc_outcome D a size_bytes e hinv hD he with
    ⟨e1, r, hee1, hget, hroom, _, _⟩ | ⟨_, hok⟩
  · have := hfull e1 r hee1 hget
    omega
  · exact hok

theorem growth_step_witness :
    (8 ≤ 9223372036854775808 ∧ Reachable 8 sample_arena ∧ sample_arena.end_ = some 1 ∧
      ∀ j r, 1 ≤ j → sample_arena.begin[j]? = some r →
        r.capacity - r.count < round_words 64) ∧
    arena_alloc 8 sample_arena 64
      = .ok (⟨sample_arena.begin ++ [⟨round_words 64, max 8 (round_words 64), fun _ => 0⟩],
              some sample_arena.begin.length⟩, ⟨sample_arena.begin.length, 0⟩) :=
  have hfull : ∀ j r, 1 ≤ j → sample_arena.begin[j]? = some r →
      r.capacity - r.count < round_words 64 := by
    intro j r hj hget
    match j, hj, hget with
    | 1, _, hget =>
      simp only [sample_arena, List.getElem?_cons_succ, List.getElem?_cons_zero,
        Option.some.injEq] at hget
      subst hget
      decide
    | j + 2, _, hget => simp [sample_arena] at hget
  ⟨⟨by decide, sample_arena_reachable, rfl, hfull⟩,
   growth_step 8 sample_arena 64 1 (by decide) sample_arena_reachable rfl hfull⟩

/-- C15: on a reachable arena (default capacity at most `2 ^ 63`) a request of
`n = round_words size_bytes` words returns the word offset equal to the count
that the chosen region had before the call (0 for a region created by the
call), leaves that region with this count plus `n`, and keeps the capacity of
every region that existed before and the count of every such region but the
chosen one; a request of 0 words on a non-empty arena changes no count. -/
theorem alloc_bump_and_frame (D : Nat) (a : Arena) (size_bytes : Nat)
    (hD : D ≤ 9223372036854775808) (h : Reachable D a) :
    ∃ a1 p r1, arena_alloc D a size_bytes = .ok (a1, p) ∧
      a1.begin[p.region]? = some r1 ∧
      p.off = WORD * ((a.begin[p.region]?.map Region.count).getD 0) ∧
      r1.count = (a.begin[p.region]?.map Region.count).getD 0 + round_words size_bytes ∧
      (∀ i r, a.begin[i]? = some r →
        ∃ r2, a1.begin[i]? = some r2 ∧ r2.capacity = r.capacity ∧
          (i ≠ p.region → r2.count = r.count)) ∧
      (round_words size_bytes = 0 → a.begin ≠ [] →
        a1.begin.map Region.shape = a.begin.map Region.shape) := by
  have hinv := reachable_inv D a h
  cases he : a.end_ with
  | none =>
    have hb : a.begin = [] := hinv.null_iff.mpr he
    refine ⟨_, _, _, arena_alloc_of_null D a size_bytes he hb, List.getElem?_cons_zero, ?_,
      ?_, ?_, ?_⟩
    · simp [hb]
    · have hm := round_words_mod size_bytes
      rw [Nat.zero_add] at hm
      simp [hb, bumped, new_region, hm]
    · intro i r hget; rw [hb] at hget; simp at hget
    · intro _ hne; exact absurd hb hne
  | some e =>
    have hlt := hinv.end_lt e he
    rcases arena_alloc_outcome D a size_bytes e hinv hD he with
      ⟨e1, r, hee1, hget, hroom, _, hok⟩ | ⟨hall, hok⟩
    · have he1 : e1 < a.begin.length := (List.getElem?_eq_some.mp hget).1
      refine ⟨_, _, _, hok, List.getElem?_set_self he1, ?_, ?_, ?_, ?_⟩
      · simp [hget]
      · simp [hget]
      · intro i r0 hget0
        by_cases hi : e1 = i
        · subst hi
          rw [hget] at hget0; cases hget0
          exact ⟨_, List.getElem?_set_self he1, rfl, fun hne => absurd rfl hne⟩
        · exact ⟨r0, by rw [List.getElem?_set_ne hi]; exact hget0, rfl, fun _ => rfl⟩
      · intro hz _
        apply List.ext_getElem?
        intro i
        simp only [List.getElem?_map, List.getElem?_set]
        by_cases hi : e1 = i
        · subst hi
          simp [he1, hget, Region.shape, hz]
        · simp [hi]
    · have hnone : a.begin[a.begin.length]? = none := List.getElem?_eq_none (le_refl _)
      refine ⟨_, _, ⟨round_words size_bytes, max D (round_words size_bytes), fun _ => 0⟩,
        hok, ?_, ?_, ?_, ?_, ?_⟩
      · simp only
        rw [List.getElem?_append_right (le_refl _)]; simp
      · simp [hnone]
      · simp [hnone]
      · intro i r0 hget0
        have hi : i < a.begin.length := (List.getElem?_eq_some.mp hget0).1
        exact ⟨r0, by simp only; rw [List.getElem?_append_left hi]; exact hget0, rfl,
          fun _ => rfl⟩
      · intro hz _
        have := hall e a.begin[e] (le_refl _) (List.getElem?_eq_getElem hlt)
        omega

theorem alloc_bump_and_frame_witness :
    (8 ≤ 9223372036854775808 ∧ Reachable 8 walk_sample) ∧
    ∃ a1 p r1, arena_alloc 8 walk_sample 24 = .ok (a1, p) ∧
      a1.begin[p.region]? = some r1 ∧
      p.off = WORD * ((walk_sample.begin[p.region]?.map Region.count).getD 0) ∧
      r1.count = (walk_sample.begin[p.region]?.map Region.count).getD 0 + round_words 24 ∧
      (∀ i r, walk_sample.begin[i]? = some r →
        ∃ r2, a1.begin[i]? = some r2 ∧ r2.capacity = r.capacity ∧
          (i ≠ p.region → r2.count = r.count)) ∧
      (round_words 24 = 0 → walk_sample.begin ≠ [] →
        a1.begin.map Region.shape = walk_sample.begin.map Region.shape) :=
  ⟨⟨by decide, walk_sample_reachable⟩,
   alloc_bump_and_frame 8 walk_sample 24 (by decide) walk_sample_reachable⟩

/-- C16: on a reachable arena, for a pointer into one of its regions and
`newsz > oldsz`, an `arena_realloc` that returns the pointer it was given has
created no region; put the other way, when the call creates a region the
pointer returned differs from the one given. -/
theorem realloc_same_pointer_no_growth (D : Nat) (a a1 : Arena) (p q : Ptr)
    (oldsz newsz : Nat) (h : Reachable D a) (hp : p.region < a.begin.length)
    (hlt : oldsz < newsz) (hok : arena_realloc D a p oldsz newsz = .ok (a1, q)) :
    (q = p → a1.begin.length = a.begin.length) ∧
      (a1.begin.length ≠ a.begin.length → q ≠ p) := by
  have hinv := reachable_inv D a h
  have key : a1.begin.length ≠ a.begin.length → q ≠ p := by
    intro hlen hqp
    unfold arena_realloc at hok
    rw [if_neg (Nat.not_le.mpr hlt)] at hok
    split at hok
    · cases hok
    · next a2 newptr halloc =>
      split at hok
      · cases hok
      · next rs hcopy =>
        cases hok
        have hsh := copy_bytes_shape _ _ _ _ _ _ hcopy
        have hl : rs.length = a2.begin.length := by
          simpa using congrArg List.length hsh
        have := alloc_new_region_ptr D a a2 newsz q hinv halloc (by
          intro h2; apply hlen; simp only; rw [hl, h2])
        rw [hqp] at this
        omega
  exact ⟨fun hqp => by
    by_contra hne
    exact key hne hqp, key⟩

theorem realloc_same_pointer_no_growth_witness :
    (Reachable 8 sample_arena ∧ (1 : Nat) < sample_arena.begin.length ∧ (0 : Nat) < 8 ∧
      arena_realloc 8 sample_arena ⟨1, 8⟩ 0 8
        = .ok (⟨[⟨8, 8, fun _ => 0⟩, ⟨2, 8, fun _ => 0⟩], some 1⟩, ⟨1, 8⟩)) ∧
    (((⟨1, 8⟩ : Ptr) = ⟨1, 8⟩ →
        (⟨[⟨8, 8, fun _ => 0⟩, ⟨2, 8, fun _ => 0⟩], some 1⟩ : Arena).begin.length
          = sample_arena.begin.length) ∧
      ((⟨[⟨8, 8, fun _ => 0⟩, ⟨2, 8, fun _ => 0⟩], some 1⟩ : Arena).begin.length
          ≠ sample_arena.begin.length → (⟨1, 8⟩ : Ptr) ≠ ⟨1, 8⟩)) :=
  ⟨⟨sample_arena_reachable, by decide, by decide, by rfl⟩,
   realloc_same_pointer_no_growth 8 sample_arena _ ⟨1, 8⟩ ⟨1, 8⟩ 0 8 sample_arena_reachable
     (by decide) (by decide) (by rfl)⟩

end ArenaH

/-! # Theorems about `string_view.h` -/

namespace StringViewH

open ArenaH (SIZE_MOD size_mod_eq)

theorem size_add_eq (a b : Nat) (h : a + b < SIZE_MOD) : size_add a b = a + b := by
  unfold size_add
  exact Nat.mod_eq_of_lt h

theorem size_sub_eq (a b : Nat) (h1 : b ≤ a) (h2 : a < SIZE_MOD) : size_sub a b = a - b := by
  unfold size_sub
  rw [size_mod_eq] at *
  rw [Nat.mod_eq_of_lt (show b < 18446744073709551616 by omega)]
  have h3 : a + 18446744073709551616 - b = (a - b) + 18446744073709551616 := by omega
  rw [h3, Nat.add_mod_right]
  exact Nat.mod_eq_of_lt (by omega)

theorem size_sub_wrap (a b : Nat) (h1 : a < b) (h2 : b < SIZE_MOD) :
    size_sub a b = a + SIZE_MOD - b := by
  unfold size_sub
  rw [size_mod_eq] at *
  rw [Nat.mod_eq_of_lt h2]
  exact Nat.mod_eq_of_lt (by omega)

theorem view_bytes_length (mem : Nat → Nat) :
    ∀ (n data : Nat), (view_bytes mem data n).length = n := by
  intro n
  induction n with
  | zero => intro data; rfl
  | succ n ih => intro data; simp [view_bytes, ih]

theorem view_bytes_add (mem : Nat → Nat) :
    ∀ (k data m : Nat),
      view_bytes mem data (k + m) = view_bytes mem data k ++ view_bytes mem (data + k) m := by
  intro k
  induction k with
  | zero => intro data m; simp [view_bytes]
  | succ k ih =>
    intro data m
    have h1 : k + 1 + m = (k + m) + 1 := by omega
    have h2 : data + (k + 1) = data + 1 + k := by omega
    rw [h1, h2]
    simp only [view_bytes, ih, List.cons_append]

theorem memcmp_eq_iff (mem : Nat → Nat) :
    ∀ (n a b : Nat), memcmp_eq mem a b n = true ↔ view_bytes mem a n = view_bytes mem b n := by
  intro n
  induction n with
  | zero => intro a b; simp [memcmp_eq, view_bytes]
  | succ n ih =>
    intro a b
    simp only [memcmp_eq, view_bytes, List.cons.injEq]
    by_cases h : mem a = mem b
    · simp [h, ih]
    · simp [h]

/-- The comparison of the window at position `j` with the delimiter is the
occurrence of the delimiter at `j`. -/
theorem sv_eq_window (mem : Nat → Nat) (sv thicc_delim : StringView) (j : Nat) :
    sv_eq mem (sv_from_parts (sv.data + j) thicc_delim.count) thicc_delim = true ↔
      occurs_at mem sv thicc_delim j := by
  simp only [sv_eq, sv_from_parts, ne_eq, not_true_eq_false, if_false, occurs_at,
    StringView.bytes]
  exact memcmp_eq_iff mem _ _ _

theorem sv_eq_window_false (mem : Nat → Nat) (sv thicc_delim : StringView) (j : Nat) :
    sv_eq mem (sv_from_parts (sv.data + j) thicc_delim.count) thicc_delim = false ↔
      ¬ occurs_at mem sv thicc_delim j := by
  rw [← sv_eq_window]
  simp

/-! ## The single-character split -/

/-- The loop of `sv_chop_by_delim` stops at the length of the longest run of
bytes other than the delimiter. -/
theorem chop_by_delim_loop_eq (mem : Nat → Nat) (sv : StringView) (c : Nat)
    (hc : sv.count < SIZE_MOD) :
    ∀ (fuel i : Nat), i + fuel = sv.count →
      chop_by_delim_loop mem sv c fuel i
        = i + ((view_bytes mem (sv.data + i) fuel).takeWhile
            (fun b => decide (b ≠ c))).length := by
  intro fuel
  induction fuel with
  | zero => intro i _; simp [chop_by_delim_loop, view_bytes]
  | succ fuel ih =>
    intro i hi
    have hlt : i < sv.count := by omega
    have hadd : size_add i 1 = i + 1 := size_add_eq i 1 (by omega)
    simp only [chop_by_delim_loop, view_bytes, hadd]
    by_cases hb : mem (sv.data + i) = c
    · rw [if_neg (by simp [hb]), List.takeWhile_cons_of_neg (by simp [hb])]
      simp
    · rw [if_pos ⟨hlt, hb⟩, List.takeWhile_cons_of_pos (by simp [hb]), ih (i + 1) (by omega)]
      simp only [List.length_cons, Nat.add_assoc]
      omega

/-- The bound on the iterations in `sv_chop_by_delim` does not cut the loop
short: where it stops, the loop condition of the source is false. -/
theorem chop_by_delim_loop_exit (mem : Nat → Nat) (sv : StringView) (c : Nat)
    (hc : sv.count < SIZE_MOD) :
    ¬ (chop_by_delim_loop mem sv c sv.count 0 < sv.count ∧
      mem (sv.data + chop_by_delim_loop mem sv c sv.count 0) ≠ c) := by
  have key : ∀ (fuel i : Nat), i + fuel = sv.count →
      ¬ (chop_by_delim_loop mem sv c fuel i < sv.count ∧
        mem (sv.data + chop_by_delim_loop mem sv c fuel i) ≠ c) := by
    intro fuel
    induction fuel with
    | zero => intro i hi; simp only [chop_by_delim_loop]; omega
    | succ fuel ih =>
      intro i hi
      have hadd : size_add i 1 = i + 1 := size_add_eq i 1 (by omega)
      simp only [chop_by_delim_loop, hadd]
      split
      · exact ih (i + 1) (by omega)
      · assumption
  exact key sv.count 0 (by omega)

theorem dropWhile_head_false {α : Type} (p : α → Bool) :
    ∀ (l : List α) (x : α) (t : List α), l.dropWhile p = x :: t → p x = false := by
  intro l
  induction l with
  | nil => intro x t h; simp at h
  | cons y ys ih =>
    intro x t h
    rw [List.dropWhile_cons] at h
    split at h
    · exact ih x t h
    · next hy =>
      simp only [List.cons.injEq] at h
      rw [← h.1]
      simpa using hy

/-- C19: `sv_chop_by_delim` returns the longest run of bytes other than the
delimiter `c` at the start of the view; when `c` occurs in the view, the view
is the chunk, then `c`, then the updated view; when it does not, the chunk is
the whole view and the updated view is empty. -/
theorem chop_by_delim_partition (mem : Nat → Nat) (sv : StringView) (c : Nat)
    (hc : sv.count < SIZE_MOD) :
    (sv_chop_by_delim mem sv c).1.bytes mem
      = (sv.bytes mem).takeWhile (fun b => decide (b ≠ c)) ∧
    (c ∈ sv.bytes mem →
      sv.bytes mem = (sv_chop_by_delim mem sv c).1.bytes mem
        ++ c :: (sv_chop_by_delim mem sv c).2.bytes mem) ∧
    (c ∉ sv.bytes mem →
      (sv_chop_by_delim mem sv c).1.bytes mem = sv.bytes mem ∧
      (sv_chop_by_delim mem sv c).2.count = 0) := by
  have hloop := chop_by_delim_loop_eq mem sv c hc sv.count 0 (by omega)
  simp only [Nat.zero_add, Nat.add_zero] at hloop
  have hk : chop_by_delim_loop mem sv c sv.count 0 ≤ sv.count := by
    rw [hloop]
    have h1 := congrArg List.length
      (List.takeWhile_append_dropWhile (fun b => decide (b ≠ c))
        (view_bytes mem sv.data sv.count))
    rw [List.length_append, view_bytes_length] at h1
    omega
  generalize hkdef : chop_by_delim_loop mem sv c sv.count 0 = k at hloop hk
  have hsplit : view_bytes mem sv.data sv.count
      = view_bytes mem sv.data k ++ view_bytes mem (sv.data + k) (sv.count - k) := by
    have h1 := view_bytes_add mem k sv.data (sv.count - k)
    have h2 : k + (sv.count - k) = sv.count := by omega
    rw [h2] at h1; exact h1
  have htd := List.takeWhile_append_dropWhile (fun b => decide (b ≠ c))
    (view_bytes mem sv.data sv.count)
  have hinj := List.append_inj (hsplit.symm.trans htd.symm)
    (by rw [view_bytes_length]; exact hloop)
  have hchunk : (sv_chop_by_delim mem sv c).1 = ⟨k, sv.data⟩ := by
    simp only [sv_chop_by_delim, hkdef, sv_from_parts]
    split <;> rfl
  have hfound : k < sv.count →
      sv.bytes mem = view_bytes mem sv.data k ++ c :: (sv_chop_by_delim mem sv c).2.bytes mem := by
    intro hlt
    have hadd : size_add k 1 = k + 1 := size_add_eq k 1 (by omega)
    have hrest : (sv_chop_by_delim mem sv c).2 = ⟨sv.count - (k + 1), sv.data + (k + 1)⟩ := by
      simp only [sv_chop_by_delim, hkdef, if_pos hlt, hadd,
        size_sub_eq sv.count (k + 1) (by omega) hc]
    have hcons : view_bytes mem (sv.data + k) (sv.count - k)
        = mem (sv.data + k) :: view_bytes mem (sv.data + (k + 1)) (sv.count - (k + 1)) := by
      have h1 : sv.count - k = (sv.count - (k + 1)) + 1 := by omega
      rw [h1]
      simp only [view_bytes, Nat.add_assoc]
    have hhead : mem (sv.data + k) = c := by
      have h1 := dropWhile_head_false (fun b => decide (b ≠ c)) _ _ _
        (hinj.2.symm.trans hcons)
      simpa using h1
    rw [hrest]
    simp only [StringView.bytes]
    rw [hsplit, hcons, hhead]
  have hmem_lt : c ∈ sv.bytes mem → k < sv.count := by
    intro hmem
    by_contra hge
    have hkeq : k = sv.count := by omega
    have hL : view_bytes mem sv.data sv.count = view_bytes mem sv.data k := by rw [hkeq]
    have hmem1 : c ∈ view_bytes mem sv.data sv.count := hmem
    rw [hL.trans hinj.1] at hmem1
    have := List.mem_takeWhile_imp hmem1
    simp at this
  refine ⟨?_, ?_, ?_⟩
  · rw [hchunk]
    exact hinj.1
  · intro hmem
    rw [hchunk]
    exact hfound (hmem_lt hmem)
  · intro hnot
    have hkeq : k = sv.count := by
      by_contra hne
      apply hnot
      rw [hfound (by omega)]
      simp
    constructor
    · rw [hchunk]
      simp only [StringView.bytes, hkeq]
    · simp only [sv_chop_by_delim, hkdef, hkeq, Nat.lt_irrefl, if_false]
      exact size_sub_eq sv.count sv.count (le_refl _) hc |>.trans (Nat.sub_self _)

theorem chop_by_delim_partition_witness :
    (4 : Nat) < SIZE_MOD ∧
    ((sv_chop_by_delim (memory_of [97, 98, 44, 99]) ⟨4, 0⟩ 44).1.bytes
        (memory_of [97, 98, 44, 99])
      = ((⟨4, 0⟩ : StringView).bytes (memory_of [97, 98, 44, 99])).takeWhile
          (fun b => decide (b ≠ 44)) ∧
    (44 ∈ (⟨4, 0⟩ : StringView).bytes (memory_of [97, 98, 44, 99]) →
      (⟨4, 0⟩ : StringView).bytes (memory_of [97, 98, 44, 99])
        = (sv_chop_by_delim (memory_of [97, 98, 44, 99]) ⟨4, 0⟩ 44).1.bytes
            (memory_of [97, 98, 44, 99])
          ++ 44 :: (sv_chop_by_delim (memory_of [97, 98, 44, 99]) ⟨4, 0⟩ 44).2.bytes
            (memory_of [97, 98, 44, 99])) ∧
    (44 ∉ (⟨4, 0⟩ : StringView).bytes (memory_of [97, 98, 44, 99]) →
      (sv_chop_by_delim (memory_of [97, 98, 44, 99]) ⟨4, 0⟩ 44).1.bytes
          (memory_of [97, 98, 44, 99])
        = (⟨4, 0⟩ : StringView).bytes (memory_of [97, 98, 44, 99]) ∧
      (sv_chop_by_delim (memory_of [97, 98, 44, 99]) ⟨4, 0⟩ 44).2.count = 0)) :=
  ⟨by decide, chop_by_delim_partition (memory_of [97, 98, 44, 99]) ⟨4, 0⟩ 44 (by decide)⟩

/-! ## The split on a multi-character delimiter -/

/-- The loop of `sv_chop_by_sv` stops at `t` when every earlier position is
tested and is not an occurrence, and `t` itself is not tested or is an
occurrence. -/
theorem chop_by_sv_loop_stops (mem : Nat → Nat) (sv d : StringView)
    (hn : sv.count < SIZE_MOD) (t : Nat) (ht : t + d.count < SIZE_MOD)
    (hbefore : ∀ j, j < t → j + d.count < sv.count ∧ ¬ occurs_at mem sv d j)
    (hstop : ¬ (t + d.count < sv.count ∧ ¬ occurs_at mem sv d t)) :
    ∀ (fuel i : Nat), i ≤ t → t - i ≤ fuel → chop_by_sv_loop mem sv d fuel i = t := by
  intro fuel
  induction fuel with
  | zero => intro i h1 h2; simp only [chop_by_sv_loop]; omega
  | succ fuel ih =>
    intro i h1 h2
    by_cases hi : i = t
    · subst hi
      simp only [chop_by_sv_loop, size_add_eq i d.count ht, sv_eq_window_false]
      rw [if_neg hstop]
    · have hb := hbefore i (by omega)
      have hadd : size_add i d.count = i + d.count := size_add_eq _ _ (by omega)
      have hinc : size_add i 1 = i + 1 := size_add_eq _ _ (by omega)
      simp only [chop_by_sv_loop, hadd, sv_eq_window_false, hinc]
      rw [if_pos hb]
      exact ih (i + 1) (by omega) (by omega)

/-- For a delimiter no longer than the view, the loop of `sv_chop_by_sv` stops
at a position where the delimiter still fits in the view. -/
theorem chop_by_sv_loop_bound (mem : Nat → Nat) (sv d : StringView)
    (hn : sv.count < SIZE_MOD) :
    ∀ (fuel i : Nat), i + d.count ≤ sv.count →
      i ≤ chop_by_sv_loop mem sv d fuel i ∧
        chop_by_sv_loop mem sv d fuel i + d.count ≤ sv.count := by
  intro fuel
  induction fuel with
  | zero => intro i h; simp only [chop_by_sv_loop]; omega
  | succ fuel ih =>
    intro i h
    have hadd : size_add i d.count = i + d.count := size_add_eq _ _ (by omega)
    simp only [chop_by_sv_loop, hadd]
    split
    · next hc =>
      have hinc : size_add i 1 = i + 1 := size_add_eq _ _ (by omega)
      rw [hinc]
      have := ih (i + 1) (by omega)
      omega
    · omega

theorem chop_by_sv_loop_exit_of_fuel (mem : Nat → Nat) (sv d : StringView)
    (hn : sv.count < SIZE_MOD) :
    ∀ (fuel i : Nat), i + d.count ≤ sv.count → sv.count - (i + d.count) < fuel →
      ¬ (size_add (chop_by_sv_loop mem sv d fuel i) d.count < sv.count ∧
        sv_eq mem (sv_from_parts (sv.data + chop_by_sv_loop mem sv d fuel i) d.count) d
          = false) := by
  intro fuel
  induction fuel with
  | zero => intro i _ h; omega
  | succ fuel ih =>
    intro i h1 h2
    have hadd : size_add i d.count = i + d.count := size_add_eq _ _ (by omega)
    simp only [chop_by_sv_loop]
    split
    · next hc =>
      rw [hadd] at hc
      have hinc : size_add i 1 = i + 1 := size_add_eq _ _ (by omega)
      rw [hinc]
      exact ih (i + 1) (by omega) (by omega)
    · assumption

/-- The bound on the iterations in `sv_chop_by_sv` does not cut the loop
short: where it stops, the loop condition of the source is false. -/
theorem chop_by_sv_loop_exit (mem : Nat → Nat) (sv d : StringView)
    (hn : sv.count < SIZE_MOD) (hd : d.count < SIZE_MOD) :
    ¬ (size_add (chop_by_sv_loop mem sv d sv.count 0) d.count < sv.count ∧
      sv_eq mem (sv_from_parts (sv.data + chop_by_sv_loop mem sv d sv.count 0) d.count) d
        = false) := by
  by_cases h0 : size_add 0 d.count < sv.count ∧
      sv_eq mem (sv_from_parts (sv.data + 0) d.count) d = false
  · have hadd : size_add 0 d.count = d.count := by
      rw [size_add_eq 0 d.count (by omega)]; omega
    rw [hadd] at h0
    have hpos : 0 < d.count := by
      by_contra hz
      have hz0 : d.count = 0 := by omega
      have := h0.2
      simp [sv_eq, sv_from_parts, hz0, memcmp_eq] at this
    exact chop_by_sv_loop_exit_of_fuel mem sv d hn sv.count 0 (by omega) (by omega)
  · have hloop : chop_by_sv_loop mem sv d sv.count 0 = 0 := by
      cases hc : sv.count with
      | zero => rfl
      | succ n =>
        simp only [chop_by_sv_loop]
        rw [if_neg h0]
    rw [hloop]
    exact h0

/-- The result of `sv_chop_by_sv` when its loop stops at `t` with `t` plus the
delimiter length short of the end of the view. -/
theorem sv_chop_by_sv_inner (mem : Nat → Nat) (sv d : StringView) (t : Nat)
    (hn : sv.count < SIZE_MOD) (hloop : chop_by_sv_loop mem sv d sv.count 0 = t)
    (ht : t + d.count < sv.count) :
    sv_chop_by_sv mem sv d
      = (⟨t, sv.data⟩, ⟨sv.count - t - d.count, sv.data + t + d.count⟩) := by
  have hadd : size_add t d.count = t + d.count := size_add_eq _ _ (by omega)
  simp only [sv_chop_by_sv, hloop, hadd, sv_from_parts]
  rw [if_neg (by omega), size_sub_eq sv.count (t + d.count) (by omega) hn]
  simp only [Prod.mk.injEq, StringView.mk.injEq, true_and]
  omega

/-- The result of `sv_chop_by_sv` when its loop stops at `t` with `t` plus the
delimiter length exactly at the end of the view. -/
theorem sv_chop_by_sv_last (mem : Nat → Nat) (sv d : StringView) (t : Nat)
    (hn : sv.count < SIZE_MOD) (hloop : chop_by_sv_loop mem sv d sv.count 0 = t)
    (ht : t + d.count = sv.count) :
    sv_chop_by_sv mem sv d = (⟨sv.count, sv.data⟩, ⟨0, sv.data + sv.count⟩) := by
  have hadd : size_add t d.count = sv.count := by
    rw [size_add_eq _ _ (by omega)]; exact ht
  simp only [sv_chop_by_sv, hloop, hadd, sv_from_parts, if_true]
  rw [size_sub_eq sv.count sv.count (le_refl _) hn, Nat.sub_self]

/-- C17: for a view of `n` bytes and a non-empty delimiter of `d ≤ n` bytes
whose only occurrence starts at `n - d`, `sv_chop_by_sv` returns the whole view
as the chunk (not its first `n - d` bytes) and leaves an empty view; when the
first occurrence starts at `p` with `p + d < n`, it returns the first `p` bytes
and leaves the `n - p - d` bytes after the delimiter. -/
theorem chop_by_sv_last_position (mem : Nat → Nat) (sv d : StringView)
    (hn : sv.count < SIZE_MOD) (hpos : 0 < d.count) (hle : d.count ≤ sv.count) :
    ((occurs_at mem sv d (sv.count - d.count) ∧
        ∀ j, j < sv.count - d.count → ¬ occurs_at mem sv d j) →
      sv_chop_by_sv mem sv d = (⟨sv.count, sv.data⟩, ⟨0, sv.data + sv.count⟩) ∧
      (sv_chop_by_sv mem sv d).1.count ≠ sv.count - d.count) ∧
    (∀ p, p + d.count < sv.count → occurs_at mem sv d p →
      (∀ j, j < p → ¬ occurs_at mem sv d j) →
      sv_chop_by_sv mem sv d
        = (⟨p, sv.data⟩, ⟨sv.count - p - d.count, sv.data + p + d.count⟩)) := by
  constructor
  · rintro ⟨_, hnone⟩
    have hloop := chop_by_sv_loop_stops mem sv d hn (sv.count - d.count) (by omega)
      (fun j hj => ⟨by omega, hnone j hj⟩) (by omega) sv.count 0 (Nat.zero_le _) (by omega)
    have hres := sv_chop_by_sv_last mem sv d _ hn hloop (by omega)
    refine ⟨hres, ?_⟩
    rw [hres]
    simp only
    omega
  · intro p hp hocc hnone
    have hloop := chop_by_sv_loop_stops mem sv d hn p (by omega)
      (fun j hj => ⟨by omega, hnone j hj⟩) (fun h => h.2 hocc) sv.count 0 (Nat.zero_le _)
      (by omega)
    exact sv_chop_by_sv_inner mem sv d p hn hloop hp

theorem chop_by_sv_last_position_witness :
    (((4 : Nat) < SIZE_MOD ∧ (0 : Nat) < 2 ∧ (2 : Nat) ≤ 4 ∧
        occurs_at (memory_of [97, 98, 45, 45, 0, 0, 0, 0, 45, 45]) ⟨4, 0⟩ ⟨2, 8⟩ (4 - 2) ∧
        ∀ j, j < 4 - 2 →
          ¬ occurs_at (memory_of [97, 98, 45, 45, 0, 0, 0, 0, 45, 45]) ⟨4, 0⟩ ⟨2, 8⟩ j) ∧
      sv_chop_by_sv (memory_of [97, 98, 45, 45, 0, 0, 0, 0, 45, 45]) ⟨4, 0⟩ ⟨2, 8⟩
        = (⟨4, 0⟩, ⟨0, 0 + 4⟩)) ∧
    ((1 + 2 < 4 ∧
        occurs_at (memory_of [97, 45, 45, 98, 0, 0, 0, 0, 45, 45]) ⟨4, 0⟩ ⟨2, 8⟩ 1 ∧
        ∀ j, j < 1 →
          ¬ occurs_at (memory_of [97, 45, 45, 98, 0, 0, 0, 0, 45, 45]) ⟨4, 0⟩ ⟨2, 8⟩ j) ∧
      sv_chop_by_sv (memory_of [97, 45, 45, 98, 0, 0, 0, 0, 45, 45]) ⟨4, 0⟩ ⟨2, 8⟩
        = (⟨1, 0⟩, ⟨4 - 1 - 2, 0 + 1 + 2⟩)) :=
  ⟨⟨⟨by decide, by decide, by decide, by decide, by decide⟩,
    ((chop_by_sv_last_position (memory_of [97, 98, 45, 45, 0, 0, 0, 0, 45, 45]) ⟨4, 0⟩ ⟨2, 8⟩
      (by decide) (by decide) (by decide)).1 ⟨by decide, by decide⟩).1⟩,
   ⟨⟨by decide, by decide, by decide⟩,
    (chop_by_sv_last_position (memory_of [97, 45, 45, 98, 0, 0, 0, 0, 45, 45]) ⟨4, 0⟩ ⟨2, 8⟩
      (by decide) (by decide) (by decide)).2 1 (by decide) (by decide) (by decide)⟩⟩

/-- C20: a view of 1 byte split on a delimiter of 2 bytes is left with a count
of `2 ^ 64 - 1`; for every delimiter longer than the view the count of the
updated view is `count + 2 ^ 64 - delimiter length`, which is greater than the
original count; and for every delimiter no longer than the view the lengths of
the chunk and of the updated view add up to at most the original count. -/
theorem chop_by_sv_length_wrap :
    (sv_chop_by_sv (memory_of [97, 0, 0, 0, 0, 0, 0, 0, 45, 45]) ⟨1, 0⟩ ⟨2, 8⟩).2.count
      = 18446744073709551615 ∧
    (∀ (mem : Nat → Nat) (sv d : StringView), sv.count < SIZE_MOD → d.count < SIZE_MOD →
      sv.count < d.count →
      (sv_chop_by_sv mem sv d).2.count = sv.count + SIZE_MOD - d.count ∧
      sv.count < (sv_chop_by_sv mem sv d).2.count) ∧
    (∀ (mem : Nat → Nat) (sv d : StringView), sv.count < SIZE_MOD → d.count ≤ sv.count →
      (sv_chop_by_sv mem sv d).1.count + (sv_chop_by_sv mem sv d).2.count ≤ sv.count) := by
  refine ⟨by decide, ?_, ?_⟩
  · intro mem sv d hn hd hlt
    have hloop := chop_by_sv_loop_stops mem sv d hn 0 (by omega)
      (fun j hj => absurd hj (Nat.not_lt_zero j)) (by omega) sv.count 0 (le_refl _)
      (Nat.zero_le _)
    have hadd : size_add 0 d.count = d.count := by
      rw [size_add_eq 0 d.count (by omega)]; omega
    have hcount : (sv_chop_by_sv mem sv d).2.count = sv.count + SIZE_MOD - d.count := by
      simp only [sv_chop_by_sv, hloop, hadd]
      exact size_sub_wrap sv.count d.count hlt hd
    refine ⟨hcount, ?_⟩
    rw [hcount]
    omega
  · intro mem sv d hn hle
    obtain ⟨_, hb⟩ := chop_by_sv_loop_bound mem sv d hn sv.count 0 (by omega)
    generalize hkdef : chop_by_sv_loop mem sv d sv.count 0 = k at hb
    by_cases hlast : k + d.count = sv.count
    · rw [sv_chop_by_sv_last mem sv d k hn hkdef hlast]
      simp
    · rw [sv_chop_by_sv_inner mem sv d k hn hkdef (by omega)]
      simp only
      omega

end StringViewH
